import Mathlib

/-!
Verification of the content-addressed deduplication and archive-packaging
engine of the clang-tool-chain-bins repository.

The Python sources are shallowly embedded:

* file contents are lists of byte values (`Bytes`);
* directories are flat lists of `DirFile` (name plus content); a name
  containing `'/'` denotes a file inside a subdirectory;
* `hashlib.md5` / `hashlib.sha256` are opaque digest functions passed as
  parameters (their outputs are modelled as `Nat`, resp. `String`);
* Python dicts keep insertion order, so they are modelled as association
  lists built in the same order as the source builds the dicts;
* fallible filesystem operations return `Option`.

String tests (`"x" in name`, `name.endswith(...)`, `sorted(...)`) are
implemented over `String.data` (lists of characters, compared by code
point, exactly as Python compares strings) so that every definition
evaluates by `decide`.
-/

/-- Byte strings: one natural number per byte. -/
abbrev Bytes := List Nat

/-- A file of a flat directory listing: relative name and byte content. -/
structure DirFile where
  name : String
  content : Bytes
deriving DecidableEq, Repr

/-! ### Character-list string primitives -/

/-- Does the character list `l` begin with the segment `p`? -/
def headMatch : List Char → List Char → Bool
  | [], _ => true
  | _ :: _, [] => false
  | a :: p, b :: l => a == b && headMatch p l

/-- Does the character list `l` contain `p` as a contiguous segment? -/
def subSeg : List Char → List Char → Bool
  | p, [] => headMatch p []
  | p, c :: rest => headMatch p (c :: rest) || subSeg p rest

/-- Python `suffix`-test `s.endswith(t)`. -/
def strEndsWith (s t : String) : Bool := headMatch t.data.reverse s.data.reverse

/-- Python containment test `t in s` (contiguous substring). -/
def strContainsSub (s t : String) : Bool := subSeg t.data s.data

/-- Python `s.endswith((t1, ..., tk))`. -/
def strEndsWithAny (s : String) (ts : List String) : Bool :=
  ts.any (fun t => strEndsWith s t)

/-- Lexicographic comparison of character lists by code point, the order
Python uses to compare strings. -/
def charListLe : List Char → List Char → Bool
  | [], _ => true
  | _ :: _, [] => false
  | a :: as, b :: bs =>
      if a.toNat < b.toNat then true
      else if b.toNat < a.toNat then false
      else charListLe as bs

/-- Python string comparison `a <= b`. -/
def strLe (a b : String) : Bool := charListLe a.data b.data

/-- The comparison `strLe` as a relation, for use with `insertionSort`. -/
def strLeR (a b : String) : Prop := strLe a b = true

instance : DecidableRel strLeR := fun a b =>
  inferInstanceAs (Decidable (strLe a b = true))

/-- Python `sorted` on a list of strings. -/
def sortStrings (l : List String) : List String := List.insertionSort strLeR l

/-! ### deduplicate_binaries.py -/

/-- Scan test of `analyze_directory`: `Path.glob("*.exe")` yields the
directory's own entries (no path separator in the name) whose name ends in
`.exe`. -/
def matchesExeGlob (s : String) : Bool :=
  !(s.data.contains '/') && strEndsWith s ".exe"

/-- One step of the scan loop of `analyze_directory`: record name `nm` with
digest `hv` and size `sz` into the table (digest, names of that digest,
size recorded at the digest's first occurrence), keeping dict insertion
order. -/
def addEntry (tbl : List (Nat × List String × Nat)) (hv : Nat) (nm : String)
    (sz : Nat) : List (Nat × List String × Nat) :=
  match tbl with
  | [] => [(hv, ([nm], sz))]
  | e :: rest =>
      if e.1 = hv then (e.1, (e.2.1 ++ [nm], e.2.2)) :: rest
      else e :: addEntry rest hv nm sz

/-- The pair of dicts `hash_to_files` / `hash_to_size` built by
`analyze_directory`, fused into one association list keyed by digest. The
digest function `md5` is an opaque parameter. -/
def analyze_directory (md5 : Bytes → Nat) (dir : List DirFile) :
    List (Nat × List String × Nat) :=
  (dir.filter (fun f => matchesExeGlob f.name)).foldl
    (fun tbl f => addEntry tbl (md5 f.content) f.name f.content.length) []

/-- The `stats` dict of `calculate_savings`. All sizes are Python ints.
The float field `savings_percent` is outside the integer model and omitted. -/
structure Stats where
  total_size : Int
  deduped_size : Int
  savings : Int
  duplicate_count : Int
deriving DecidableEq, Repr

/-- Model of `calculate_savings`: one pass over the digest table
accumulating total size (size times name count), deduplicated size (size
once per digest) and the duplicate count (names beyond the first in groups
of more than one). -/
def calculate_savings (tbl : List (Nat × List String × Nat)) : Stats :=
  let acc := tbl.foldl
    (fun acc e =>
      (acc.1 + (e.2.2 : Int) * e.2.1.length,
       acc.2.1 + (e.2.2 : Int),
       acc.2.2 + if e.2.1.length > 1 then (e.2.1.length : Int) - 1 else 0))
    ((0 : Int), (0 : Int), (0 : Int))
  { total_size := acc.1, deduped_size := acc.2.1,
    savings := acc.1 - acc.2.1, duplicate_count := acc.2.2 }

/-- Read the content of the named file, as `shutil.copy2`'s source read;
`none` models the raised error when the file is missing. -/
def dirLookup (dir : List DirFile) (nm : String) : Option Bytes :=
  match dir.find? (fun f => f.name == nm) with
  | some f => some f.content
  | none => none

/-- One digest group processed by the `dedup` loop of
`create_deduped_structure`: the canonical name is the head of the sorted
name list (`sorted(files)[0]`) and its content is copied into the
canonical store. -/
structure DedupGroup where
  digest : Nat
  files : List String
  canonical : String
  content : Bytes
deriving DecidableEq, Repr

/-- The `sorted(hash_to_files.items())` iteration order: table entries
sorted by digest. -/
def sortByDigest (tbl : List (Nat × List String × Nat)) :
    List (Nat × List String × Nat) :=
  List.insertionSort (fun a b => a.1 ≤ b.1) tbl

/-- The canonical-name choice `sorted(files)[0]` of the `dedup` loop (the
list is never empty when the loop reads it, so the default is irrelevant). -/
def canonOf (fs : List String) : String := (sortStrings fs).headD ""

/-- The body of the `dedup` loop: pick each group's canonical name and copy
its bytes out of the source directory (a missing source file raises, hence
`Option`). -/
def buildGroups (src : List DirFile) :
    List (Nat × List String × Nat) → Option (List DedupGroup)
  | [] => some []
  | e :: rest =>
      let canonical := canonOf e.2.1
      match dirLookup src canonical, buildGroups src rest with
      | some b, some gs =>
          some ({ digest := e.1, files := e.2.1, canonical := canonical,
                  content := b } :: gs)
      | _, _ => none

/-- The persisted output of `create_deduped_structure`: the manifest dict
(name to canonical name), the `canonical_files` dict (digest to canonical
name), the canonical directory's contents, and the savings stats. -/
structure DedupOutput where
  manifest : List (String × String)
  canonical_files : List (Nat × String)
  canonicalStore : List (String × Bytes)
  stats : Stats
deriving DecidableEq, Repr

/-- Model of `create_deduped_structure`. -/
def create_deduped_structure (md5 : Bytes → Nat) (src : List DirFile) :
    Option DedupOutput :=
  let tbl := analyze_directory md5 src
  match buildGroups src (sortByDigest tbl) with
  | none => none
  | some gs =>
      some { manifest := gs.flatMap (fun g => g.files.map (fun n => (n, g.canonical)))
             canonical_files := gs.map (fun g => (g.digest, g.canonical))
             canonicalStore := gs.map (fun g => (g.canonical, g.content))
             stats := calculate_savings tbl }

/-- Read a file of the canonical store (expansion's copy source). -/
def storeLookup (store : List (String × Bytes)) (nm : String) : Option Bytes :=
  match store.find? (fun p => p.1 == nm) with
  | some p => some p.2
  | none => none

/-- Model of `expand_deduped_structure`: for every manifest pair copy the
canonical file's bytes to the original name; a missing canonical file
raises (`none`). -/
def expand_deduped_structure (store : List (String × Bytes)) :
    List (String × String) → Option (List (String × Bytes))
  | [] => some []
  | (n, c) :: rest =>
      match storeLookup store c, expand_deduped_structure store rest with
      | some b, some out => some ((n, b) :: out)
      | _, _ => none

/-- The round trip `expand(dedup(D))` of the spec. -/
def dedup_then_expand (md5 : Bytes → Nat) (src : List DirFile) :
    Option (List (String × Bytes)) :=
  match create_deduped_structure md5 src with
  | none => none
  | some o => expand_deduped_structure o.canonicalStore o.manifest

/-! ### split_archive.py and the generated join scripts -/

/-- The read-and-write loop of `split_archive`: `f.read(c)` yields the next
at most `c` bytes, an empty read ends the loop, and each chunk is written
to `<archive-name>.part<partNum>` with `partNum` counting up from the
starting value. The loop runs at most once per input byte (each iteration
consumes at least one byte), so `fuel = data.length` iterations suffice;
`splitGo` is the loop body with that explicit iteration bound. -/
def splitGo (archiveName : String) (c : Nat) :
    Nat → Nat → Bytes → List (String × Bytes)
  | 0, _, _ => []
  | fuel + 1, partNum, data =>
      if data.take c = [] then []
      else (archiveName ++ ".part" ++ toString partNum, data.take c)
           :: splitGo archiveName c fuel (partNum + 1) (data.drop c)

/-- Model of `split_archive`: split `data` into parts of `partSizeBytes`
bytes (the CLI passes `part_size_mb * 1024 * 1024`), named
`<archive-name>.part1`, `<archive-name>.part2`, ... -/
def split_archive (archiveName : String) (partSizeBytes : Nat) (data : Bytes) :
    List (String × Bytes) :=
  splitGo archiveName partSizeBytes data.length 1 data

/-- The generated join script: open each part in list order and append its
bytes to the output file. -/
def joinParts (parts : List (String × Bytes)) : Bytes :=
  parts.foldl (fun acc p => acc ++ p.2) []

/-! ### create_hardlink_archive.py -/

/-- Result of `create_hardlink_structure`: the files materialized in the
output `bin` directory (in creation order) and the warnings printed. -/
structure HardlinkResult where
  outFiles : List (String × Bytes)
  warnings : List String
deriving DecidableEq, Repr

/-- The `sorted(manifest.items())` iteration order. Manifest keys are dict
keys, hence unique, so sorting the pairs orders them by key. -/
def sortManifest (manifest : List (String × String)) : List (String × String) :=
  List.insertionSort (fun a b => strLeR a.1 b.1) manifest

/-- The per-entry loop of `create_hardlink_structure`. `copied` is the key
set of the `canonical_copied` dict. A canonical name missing from the
canonical store prints a warning naming it and skips the entry. The first
destination of a canonical file receives a copy; later destinations are
hard-linked to it, and if the link syscall fails (`linkFails` names the
destinations where `os.link` raises `OSError`) the code warns and falls
back to copying the canonical source. In every non-skipped case the
destination holds the canonical file's bytes. -/
def hardlinkLoop (store : List (String × Bytes)) (linkFails : String → Bool) :
    List (String × String) → List String → HardlinkResult
  | [], _ => { outFiles := [], warnings := [] }
  | (filename, canonical) :: rest, copied =>
      match storeLookup store canonical with
      | none =>
          let r := hardlinkLoop store linkFails rest copied
          { outFiles := r.outFiles,
            warnings := ("Warning: Canonical file not found: " ++ canonical)
                        :: r.warnings }
      | some b =>
          if canonical ∈ copied then
            let r := hardlinkLoop store linkFails rest copied
            { outFiles := (filename, b) :: r.outFiles,
              warnings :=
                if linkFails filename then
                  ("Warning: Hard link failed, using copy instead: " ++ filename)
                  :: r.warnings
                else r.warnings }
          else
            let r := hardlinkLoop store linkFails rest (canonical :: copied)
            { outFiles := (filename, b) :: r.outFiles, warnings := r.warnings }

/-- Model of `create_hardlink_structure`. -/
def create_hardlink_structure (store : List (String × Bytes))
    (manifest : List (String × String)) (linkFails : String → Bool) :
    HardlinkResult :=
  hardlinkLoop store linkFails (sortManifest manifest) []

/-- Model of the `tar_filter` closure of `create_tar_archive`: the mode
stored for an archive entry, from the entry's path, whether it is a
regular file, and the source filesystem mode the `TarInfo` arrived with. -/
def tar_filter (name : String) (isFileEntry : Bool) (srcMode : Nat) : Nat :=
  if isFileEntry then
    if strContainsSub name "/bin/" && !(strContainsSub name "/lib/") then 0o755
    else if strContainsSub name "/lib/" then
      if strEndsWithAny name [".h", ".inc", ".modulemap", ".tcc", ".txt", ".a", ".syms"]
      then 0o644
      else if strEndsWithAny name [".so", ".dylib"] || strContainsSub name ".so."
      then 0o755
      else if strContainsSub name "/bin/" &&
              !(strEndsWithAny name [".h", ".inc", ".txt", ".a", ".so", ".dylib"])
      then 0o755
      else srcMode
    else srcMode
  else srcMode

/-- Archiving a walked directory: every entry (path, regular-file flag,
source mode) is stored with the mode `tar_filter` assigns. -/
def packageArchive (entries : List (String × Bool × Nat)) :
    List (String × Bool × Nat) :=
  entries.map (fun e => (e.1, e.2.1, tar_filter e.1 e.2.1 e.2.2))

/-- The issues `verify_tar_permissions` records for one regular-file
member, as (name, mode, issue description) triples. -/
def memberIssues (name : String) (mode : Nat) : List (String × Nat × String) :=
  if strContainsSub name "/bin/" then
    if mode &&& 0o100 = 0 then [(name, mode, "binary missing executable")] else []
  else if strContainsSub name "/lib/" then
    if strEndsWithAny name [".h", ".inc", ".modulemap", ".tcc", ".txt", ".a", ".syms"]
    then
      if mode &&& 0o100 = 0 then []
      else [(name, mode, "header/static lib has executable bit")]
    else if strEndsWithAny name [".so", ".dylib"] || strContainsSub name ".so."
    then
      if mode &&& 0o100 = 0 then [(name, mode, "shared lib missing executable")]
      else []
    else if strContainsSub name "/bin/" &&
            !(strEndsWithAny name [".h", ".inc", ".txt", ".a", ".so", ".dylib"])
    then
      if mode &&& 0o100 = 0 then [(name, mode, "lib binary missing executable")]
      else []
    else []
  else []

/-- The `issues_found` list of `verify_tar_permissions` over the archive
members (non-files are skipped). -/
def verify_tar_permissions (members : List (String × Bool × Nat)) :
    List (String × Nat × String) :=
  (members.filter (fun m => m.2.1)).flatMap (fun m => memberIssues m.1 m.2.2)

/-- The outcome of the verification step: `verify_tar_permissions` raises
`RuntimeError` exactly when the issue list is non-empty. -/
def verify_tar_run (members : List (String × Bool × Nat)) : Except String Unit :=
  let issues := verify_tar_permissions members
  if issues = [] then Except.ok ()
  else Except.error ("Tar archive has " ++ toString issues.length ++
                     " files with incorrect permissions")

/-! ### fetch_and_archive.py, generate_checksums -/

/-- Model of `generate_checksums`: hash the finalized artifact bytes and
write the two sidecar files. Returns the digest pair and the list of
(sidecar filename, sidecar text) writes. The digest functions are opaque
parameters producing hex strings. -/
def generate_checksums (sha256h md5h : Bytes → String) (archiveName : String)
    (archive : Bytes) : (String × String) × List (String × String) :=
  let sha256 := sha256h archive
  let md5 := md5h archive
  ((sha256, md5),
   [(archiveName ++ ".sha256", sha256 ++ " *" ++ archiveName ++ "\n"),
    (archiveName ++ ".md5", md5 ++ " *" ++ archiveName ++ "\n")])

/-- Sample digest function for concrete test inputs (any function works
for the scenario statements; this one is injective on short byte lists). -/
def testHash (b : Bytes) : Nat := b.foldl (fun a x => a * 256 + x % 256 + 1) 1

example :
    create_deduped_structure testHash
      [⟨"b.exe", [7]⟩, ⟨"a.exe", [7]⟩, ⟨"c.exe", [7]⟩] =
    some { manifest := [("b.exe", "a.exe"), ("a.exe", "a.exe"), ("c.exe", "a.exe")]
           canonical_files := [(testHash [7], "a.exe")]
           canonicalStore := [("a.exe", [7])]
           stats := { total_size := 3, deduped_size := 1, savings := 2,
                      duplicate_count := 2 } } := by decide

example :
    dedup_then_expand testHash [⟨"b.exe", [7]⟩, ⟨"a.exe", [9]⟩] =
    some [("b.exe", [7]), ("a.exe", [9])] := by decide

/-! ### Order facts about the string comparison -/

theorem charListLe_refl (l : List Char) : charListLe l l = true := by
  induction l with
  | nil => rfl
  | cons a as ih => simp [charListLe, ih]

theorem charListLe_total (a b : List Char) :
    charListLe a b = true ∨ charListLe b a = true := by
  induction a generalizing b with
  | nil => left; rfl
  | cons x xs ih =>
    cases b with
    | nil => right; rfl
    | cons y ys =>
      by_cases hxy : x.toNat < y.toNat
      · left; simp [charListLe, hxy]
      · by_cases hyx : y.toNat < x.toNat
        · right; simp [charListLe, hyx]
        · rcases ih ys with h | h
          · left; simp [charListLe, hxy, hyx, h]
          · right; simp [charListLe, hxy, hyx, h]

theorem charListLe_trans (a b c : List Char) (hab : charListLe a b = true)
    (hbc : charListLe b c = true) : charListLe a c = true := by
  induction a generalizing b c with
  | nil => rfl
  | cons x xs ih =>
    cases b with
    | nil => simp [charListLe] at hab
    | cons y ys =>
      cases c with
      | nil => simp [charListLe] at hbc
      | cons z zs =>
        by_cases hxy : x.toNat < y.toNat <;> by_cases hyz : y.toNat < z.toNat <;>
          by_cases hyx : y.toNat < x.toNat <;> by_cases hzy : z.toNat < y.toNat <;>
            simp [charListLe, hxy, hyz, hyx, hzy] at hab hbc ⊢ <;>
              first
                | omega
                | (have hxz : x.toNat < z.toNat := by omega
                   simp [hxz])
                | (have hxz : ¬ x.toNat < z.toNat := by omega
                   have hzx : ¬ z.toNat < x.toNat := by omega
                   simp [hxz, hzx]
                   first
                     | exact ih ys zs hab hbc
                     | exact ⟨by omega, ih ys zs hab hbc⟩
                     | (constructor
                        · omega
                        · exact ih ys zs hab hbc))

theorem strLe_refl (s : String) : strLe s s = true := charListLe_refl s.data

instance : IsTotal String strLeR :=
  ⟨fun a b => charListLe_total a.data b.data⟩

instance : IsTrans String strLeR :=
  ⟨fun a b c => charListLe_trans a.data b.data c.data⟩

theorem sortStrings_perm (l : List String) : (sortStrings l).Perm l :=
  List.perm_insertionSort _ l

theorem sortStrings_sorted (l : List String) :
    List.Sorted strLeR (sortStrings l) :=
  List.sorted_insertionSort _ l

theorem canonOf_mem (fs : List String) (h : fs ≠ []) : canonOf fs ∈ fs := by
  have hp := sortStrings_perm fs
  cases hs : sortStrings fs with
  | nil =>
    rw [hs] at hp
    exact absurd (hp.symm.eq_nil) h
  | cons x r =>
    have : x ∈ sortStrings fs := by rw [hs]; exact List.mem_cons_self x r
    have hx := hp.mem_iff.mp this
    simpa [canonOf, hs] using hx

theorem canonOf_le (fs : List String) (nm : String) (hnm : nm ∈ fs) :
    strLe (canonOf fs) nm = true := by
  have hp := sortStrings_perm fs
  have hs := sortStrings_sorted fs
  have hnm' : nm ∈ sortStrings fs := hp.mem_iff.mpr hnm
  cases h : sortStrings fs with
  | nil => rw [h] at hnm'; simp at hnm'
  | cons x r =>
    rw [h] at hnm' hs
    rcases List.mem_cons.mp hnm' with rfl | hmem
    · simpa [canonOf, h] using strLe_refl nm
    · have := List.rel_of_sorted_cons hs nm hmem
      simpa [canonOf, h] using this

/-! ### Properties of the archive splitter and joiner -/

theorem joinParts_eq_flatten_aux (l : List (String × Bytes)) (acc : Bytes) :
    l.foldl (fun a p => a ++ p.2) acc = acc ++ (l.map Prod.snd).flatten := by
  induction l generalizing acc with
  | nil => simp
  | cons p rest ih => simp [ih, List.append_assoc]

theorem joinParts_eq_flatten (l : List (String × Bytes)) :
    joinParts l = (l.map Prod.snd).flatten := by
  simpa [joinParts] using joinParts_eq_flatten_aux l []

theorem splitGo_join (n : String) (c : Nat) (hc : 0 < c) :
    ∀ (fuel p : Nat) (d : Bytes), d.length ≤ fuel →
      joinParts (splitGo n c fuel p d) = d := by
  intro fuel
  induction fuel with
  | zero =>
    intro p d hd
    have : d = [] := List.eq_nil_of_length_eq_zero (Nat.le_zero.mp hd)
    subst this
    simp [splitGo, joinParts]
  | succ fuel ih =>
    intro p d hd
    by_cases h : d.take c = []
    · have : d = [] := by
        rcases List.take_eq_nil_iff.mp h with h0 | h0
        · omega
        · exact h0
      subst this
      simp [splitGo, joinParts]
    · rw [splitGo, if_neg h]
      rw [joinParts_eq_flatten] at *
      simp only [List.map_cons, List.flatten_cons]
      have hlen : (d.drop c).length ≤ fuel := by
        simp [List.length_drop]
        omega
      have := ih (p + 1) (d.drop c) hlen
      rw [joinParts_eq_flatten] at this
      rw [this, List.take_append_drop]

theorem splitGo_count (n : String) (c : Nat) (hc : 0 < c) :
    ∀ (fuel p : Nat) (d : Bytes), d.length ≤ fuel →
      (splitGo n c fuel p d).length = (d.length + c - 1) / c := by
  intro fuel
  induction fuel with
  | zero =>
    intro p d hd
    have : d = [] := List.eq_nil_of_length_eq_zero (Nat.le_zero.mp hd)
    subst this
    simp [splitGo, Nat.div_eq_of_lt (show c - 1 < c by omega)]
  | succ fuel ih =>
    intro p d hd
    by_cases h : d.take c = []
    · have : d = [] := by
        rcases List.take_eq_nil_iff.mp h with h0 | h0
        · omega
        · exact h0
      subst this
      simp [splitGo, Nat.div_eq_of_lt (show c - 1 < c by omega)]
    · rw [splitGo, if_neg h]
      have hne : d ≠ [] := by
        intro h0; subst h0; simp at h
      have hdpos : 0 < d.length := List.length_pos.mpr hne
      have hlen : (d.drop c).length ≤ fuel := by
        simp [List.length_drop]; omega
      have hih := ih (p + 1) (d.drop c) hlen
      simp only [List.length_cons, hih, List.length_drop]
      rw [show d.length + c - 1 = (d.length - 1) + c from by omega,
          Nat.add_div_right _ hc]
      rcases le_or_lt c d.length with hcd | hcd
      · rw [show d.length - c + c - 1 = d.length - 1 from by omega]
      · have h1 : d.length - c = 0 := by omega
        rw [h1]
        have h2 : (0 + c - 1) / c = 0 := Nat.div_eq_of_lt (by omega)
        have h3 : (d.length - 1) / c = 0 := Nat.div_eq_of_lt (by omega)
        omega

theorem splitGo_names (n : String) (c : Nat) (hc : 0 < c) :
    ∀ (fuel p : Nat) (d : Bytes), d.length ≤ fuel →
      (splitGo n c fuel p d).map Prod.fst =
        (List.range' p (splitGo n c fuel p d).length).map
          (fun i => n ++ ".part" ++ toString i) := by
  intro fuel
  induction fuel with
  | zero =>
    intro p d hd
    simp [splitGo]
  | succ fuel ih =>
    intro p d hd
    by_cases h : d.take c = []
    · simp [splitGo, h]
    · rw [splitGo, if_neg h]
      have hlen : (d.drop c).length ≤ fuel := by
        simp [List.length_drop]; omega
      have hih := ih (p + 1) (d.drop c) hlen
      simp only [List.map_cons, List.length_cons, hih, List.range'_succ]

theorem splitGo_sizes (n : String) (c : Nat) (hc : 0 < c) :
    ∀ (fuel p : Nat) (d : Bytes), d.length ≤ fuel →
      (∀ q ∈ (splitGo n c fuel p d).dropLast, q.2.length = c) ∧
      (∀ q ∈ splitGo n c fuel p d, q.2.length ≤ c ∧ q.2 ≠ []) := by
  intro fuel
  induction fuel with
  | zero =>
    intro p d hd
    simp [splitGo]
  | succ fuel ih =>
    intro p d hd
    by_cases h : d.take c = []
    · simp [splitGo, h]
    · rw [splitGo, if_neg h]
      have hlen : (d.drop c).length ≤ fuel := by
        simp [List.length_drop]; omega
      have hih := ih (p + 1) (d.drop c) hlen
      constructor
      · intro q hq
        cases hrest : splitGo n c fuel (p + 1) (d.drop c) with
        | nil =>
          rw [hrest] at hq
          simp at hq
        | cons r rs =>
          rw [hrest] at hq
          rw [List.dropLast_cons₂] at hq
          rcases List.mem_cons.mp hq with rfl | hmem
          · have hdropne : d.drop c ≠ [] := by
              intro h0
              cases fuel with
              | zero => simp [splitGo] at hrest
              | succ fuel' =>
                rw [h0] at hrest
                simp [splitGo] at hrest
            have : c < d.length := by
              have := List.length_pos.mpr hdropne
              simp [List.length_drop] at this
              omega
            simp [List.length_take]
            omega
          · have := hih.1
            rw [hrest] at this
            exact this q hmem
      · intro q hq
        rcases List.mem_cons.mp hq with rfl | hmem
        · refine ⟨?_, h⟩
          simp [List.length_take]
        · exact hih.2 q hmem

/-- Claim C2: for every artifact and positive ceiling, splitting yields
exactly ceil(size/ceiling) parts named `<archive-filename>.part<N>` with
`N` contiguous from 1, every part except possibly the last is exactly the
ceiling size, and joining the parts in numeric order reproduces the
artifact byte-for-byte. -/
theorem claim_C2 (archiveName : String) (c : Nat) (d : Bytes) (hc : 0 < c) :
    joinParts (split_archive archiveName c d) = d ∧
    (split_archive archiveName c d).length = (d.length + c - 1) / c ∧
    (split_archive archiveName c d).map Prod.fst =
      (List.range' 1 (split_archive archiveName c d).length).map
        (fun i => archiveName ++ ".part" ++ toString i) ∧
    (∀ q ∈ (split_archive archiveName c d).dropLast, q.2.length = c) ∧
    (∀ q ∈ split_archive archiveName c d, q.2.length ≤ c) :=
  ⟨splitGo_join _ _ hc _ _ _ le_rfl,
   splitGo_count _ _ hc _ _ _ le_rfl,
   splitGo_names _ _ hc _ _ _ le_rfl,
   (splitGo_sizes _ _ hc _ _ _ le_rfl).1,
   fun q hq => ((splitGo_sizes _ _ hc _ _ _ le_rfl).2 q hq).1⟩

/-- Witness for C2 at a five-byte artifact and ceiling 2. -/
theorem claim_C2_witness :
    0 < 2 ∧
    (joinParts (split_archive "x.tar.zst" 2 [10, 20, 30, 40, 50]) =
       [10, 20, 30, 40, 50] ∧
     (split_archive "x.tar.zst" 2 [10, 20, 30, 40, 50]).length =
       ([10, 20, 30, 40, 50] : Bytes).length.add 1 / 2 ∧
     (split_archive "x.tar.zst" 2 [10, 20, 30, 40, 50]).map Prod.fst =
       (List.range' 1 (split_archive "x.tar.zst" 2 [10, 20, 30, 40, 50]).length).map
         (fun i => "x.tar.zst" ++ ".part" ++ toString i) ∧
     (∀ q ∈ (split_archive "x.tar.zst" 2 [10, 20, 30, 40, 50]).dropLast,
        q.2.length = 2) ∧
     (∀ q ∈ split_archive "x.tar.zst" 2 [10, 20, 30, 40, 50], q.2.length ≤ 2)) :=
  ⟨by decide, claim_C2 "x.tar.zst" 2 [10, 20, 30, 40, 50] (by decide)⟩

/-! ### Structure of the digest table built by analyze_directory -/

/-- All names recorded in a digest table, in group order. -/
def tblNames (tbl : List (Nat × List String × Nat)) : List String :=
  tbl.flatMap (fun e => e.2.1)

theorem tblNames_addEntry (tbl : List (Nat × List String × Nat)) (hv : Nat)
    (nm : String) (sz : Nat) :
    (tblNames (addEntry tbl hv nm sz)).Perm (nm :: tblNames tbl) := by
  induction tbl with
  | nil => simp [addEntry, tblNames]
  | cons e rest ih =>
    by_cases h : e.1 = hv
    · simp only [addEntry, if_pos h, tblNames, List.flatMap_cons]
      rw [List.append_assoc]
      exact List.perm_middle
    · simp only [addEntry, if_neg h, tblNames, List.flatMap_cons]
      exact ((ih).append_left e.2.1).trans List.perm_middle

theorem scan_names_perm (md5 : Bytes → Nat) :
    ∀ (fs : List DirFile) (tbl : List (Nat × List String × Nat)),
      (tblNames (fs.foldl
        (fun tbl f => addEntry tbl (md5 f.content) f.name f.content.length) tbl)).Perm
        (fs.map DirFile.name ++ tblNames tbl) := by
  intro fs
  induction fs with
  | nil => intro tbl; simp
  | cons f fs ih =>
    intro tbl
    simp only [List.foldl_cons, List.map_cons]
    refine ((ih _).trans ?_)
    refine ((tblNames_addEntry tbl (md5 f.content) f.name f.content.length).append_left _).trans ?_
    exact List.perm_middle

theorem analyze_names_perm (md5 : Bytes → Nat) (D : List DirFile) :
    (tblNames (analyze_directory md5 D)).Perm
      ((D.filter fun f => matchesExeGlob f.name).map DirFile.name) := by
  simpa [tblNames] using scan_names_perm md5 (D.filter fun f => matchesExeGlob f.name) []

/-- Invariant of the digest table relative to the scanned file list `L`:
every group is non-empty, every recorded name belongs to a scanned file
whose digest is the group key, and the recorded size is the content length
of some scanned file with that digest. -/
def TblOk (md5 : Bytes → Nat) (L : List DirFile)
    (tbl : List (Nat × List String × Nat)) : Prop :=
  ∀ e ∈ tbl,
    e.2.1 ≠ [] ∧
    (∀ nm ∈ e.2.1, ∃ b, DirFile.mk nm b ∈ L ∧ md5 b = e.1) ∧
    (∃ f, f ∈ L ∧ md5 f.content = e.1 ∧ f.content.length = e.2.2)

theorem tblOk_nil (md5 : Bytes → Nat) (L : List DirFile) : TblOk md5 L [] := by
  intro e he
  simp at he

theorem tblOk_addEntry (md5 : Bytes → Nat) (L : List DirFile) (f : DirFile)
    (hf : f ∈ L) :
    ∀ tbl, TblOk md5 L tbl →
      TblOk md5 L (addEntry tbl (md5 f.content) f.name f.content.length) := by
  intro tbl
  induction tbl with
  | nil =>
    intro _ e he
    simp only [addEntry, List.mem_singleton] at he
    subst he
    refine ⟨by simp, ?_, ⟨f, hf, rfl, rfl⟩⟩
    intro nm hnm
    simp at hnm
    subst hnm
    exact ⟨f.content, hf, rfl⟩
  | cons e0 rest ih =>
    intro hT e he
    by_cases h : e0.1 = md5 f.content
    · rw [addEntry, if_pos h] at he
      rcases List.mem_cons.mp he with rfl | hmem
      · obtain ⟨hne, hmemb, hsz⟩ := hT e0 (List.mem_cons_self _ _)
        refine ⟨by simp, ?_, hsz⟩
        intro nm hnm
        rcases List.mem_append.mp hnm with hl | hr
        · exact hmemb nm hl
        · simp at hr
          subst hr
          exact ⟨f.content, hf, h.symm⟩
      · exact hT e (List.mem_cons_of_mem _ hmem)
    · rw [addEntry, if_neg h] at he
      rcases List.mem_cons.mp he with rfl | hmem
      · exact hT e (List.mem_cons_self _ _)
      · exact ih (fun e' he' => hT e' (List.mem_cons_of_mem _ he')) e hmem

theorem tblOk_foldl (md5 : Bytes → Nat) (L : List DirFile) :
    ∀ (fs : List DirFile) (tbl), (∀ f ∈ fs, f ∈ L) → TblOk md5 L tbl →
      TblOk md5 L (fs.foldl
        (fun tbl f => addEntry tbl (md5 f.content) f.name f.content.length) tbl) := by
  intro fs
  induction fs with
  | nil => intro tbl _ hT; exact hT
  | cons f fs ih =>
    intro tbl hfs hT
    simp only [List.foldl_cons]
    exact ih _ (fun g hg => hfs g (List.mem_cons_of_mem _ hg))
      (tblOk_addEntry md5 L f (hfs f (List.mem_cons_self _ _)) tbl hT)

theorem analyze_tblOk (md5 : Bytes → Nat) (D : List DirFile) :
    TblOk md5 (D.filter fun f => matchesExeGlob f.name)
      (analyze_directory md5 D) :=
  tblOk_foldl md5 _ _ [] (fun _ hf => hf) (tblOk_nil md5 _)

theorem tblOk_of_perm (md5 : Bytes → Nat) (L : List DirFile)
    (tbl1 tbl2 : List (Nat × List String × Nat)) (hp : tbl1.Perm tbl2)
    (hT : TblOk md5 L tbl1) : TblOk md5 L tbl2 :=
  fun e he => hT e (hp.mem_iff.mpr he)

theorem analyze_members_match (md5 : Bytes → Nat) (D : List DirFile) :
    ∀ e ∈ analyze_directory md5 D,
      e.2.1 ≠ [] ∧ ∀ nm ∈ e.2.1, matchesExeGlob nm = true := by
  intro e he
  obtain ⟨hne, hmemb, _⟩ := analyze_tblOk md5 D e he
  refine ⟨hne, fun nm hnm => ?_⟩
  obtain ⟨b, hb, _⟩ := hmemb nm hnm
  exact (List.mem_filter.mp hb).2

/-! ### The dedup loop -/

theorem buildGroups_spec (src : List DirFile) :
    ∀ (tbl : List (Nat × List String × Nat)) (gs : List DedupGroup),
      buildGroups src tbl = some gs →
      gs.map (fun g => (g.digest, g.files)) = tbl.map (fun e => (e.1, e.2.1)) ∧
      ∀ g ∈ gs, g.canonical = canonOf g.files ∧
        dirLookup src g.canonical = some g.content := by
  intro tbl
  induction tbl with
  | nil =>
    intro gs h
    simp only [buildGroups] at h
    cases h
    simp
  | cons e rest ih =>
    intro gs h
    simp only [buildGroups] at h
    cases hd : dirLookup src (canonOf e.2.1) with
    | none => rw [hd] at h; simp at h
    | some b =>
      cases hr : buildGroups src rest with
      | none => rw [hd, hr] at h; simp at h
      | some gs' =>
        rw [hd, hr] at h
        simp only [Option.some.injEq] at h
        subst h
        obtain ⟨hmap, hmem⟩ := ih gs' hr
        refine ⟨by simp [hmap], ?_⟩
        intro g hg
        rcases List.mem_cons.mp hg with rfl | hgs'
        · exact ⟨rfl, hd⟩
        · exact hmem g hgs'

theorem dirLookup_congr (D1 D2 : List DirFile) (f : DirFile)
    (hf : matchesExeGlob f.name = false) (nm : String)
    (hnm : matchesExeGlob nm = true) :
    dirLookup (D1 ++ f :: D2) nm = dirLookup (D1 ++ D2) nm := by
  have hne : (f.name == nm) = false := by
    by_cases h : f.name = nm
    · rw [h] at hf; rw [hf] at hnm; cases hnm
    · simp [h]
  induction D1 with
  | nil =>
    simp only [List.nil_append, dirLookup, List.find?_cons, hne]
  | cons g D1 ih =>
    simp only [List.cons_append, dirLookup, List.find?_cons]
    cases hg : (g.name == nm) with
    | true => rfl
    | false => simpa [dirLookup] using ih

theorem buildGroups_congr (src1 src2 : List DirFile)
    (hL : ∀ nm, matchesExeGlob nm = true → dirLookup src1 nm = dirLookup src2 nm) :
    ∀ tbl, (∀ e ∈ tbl, e.2.1 ≠ [] ∧ ∀ nm ∈ e.2.1, matchesExeGlob nm = true) →
      buildGroups src1 tbl = buildGroups src2 tbl := by
  intro tbl
  induction tbl with
  | nil => intro _; rfl
  | cons e rest ih =>
    intro hI
    obtain ⟨hne, hmem⟩ := hI e (List.mem_cons_self _ _)
    have hcan : matchesExeGlob (canonOf e.2.1) = true :=
      hmem _ (canonOf_mem _ hne)
    simp only [buildGroups]
    rw [hL _ hcan, ih (fun e' he' => hI e' (List.mem_cons_of_mem _ he'))]

/-- Claim C10 (confirmed): the scan records only top-level `*.exe` files.
Inserting any file whose name does not match the glob (wrong suffix, or
inside a subdirectory) anywhere in the directory leaves the whole dedup
output — manifest, canonical files, stats — unchanged, and every name in
the manifest and every canonical name matches the glob. -/
theorem claim_C10 (md5 : Bytes → Nat) (D D1 D2 : List DirFile) (f : DirFile)
    (hf : matchesExeGlob f.name = false) :
    create_deduped_structure md5 (D1 ++ f :: D2) =
      create_deduped_structure md5 (D1 ++ D2) ∧
    (∀ o, create_deduped_structure md5 D = some o →
      (∀ p ∈ o.manifest, matchesExeGlob p.1 = true ∧ matchesExeGlob p.2 = true) ∧
      (∀ q ∈ o.canonical_files, matchesExeGlob q.2 = true)) := by
  constructor
  · have hfilter : (D1 ++ f :: D2).filter (fun g => matchesExeGlob g.name) =
        (D1 ++ D2).filter (fun g => matchesExeGlob g.name) := by
      simp [List.filter_append, List.filter_cons, hf]
    have htbl : analyze_directory md5 (D1 ++ f :: D2) =
        analyze_directory md5 (D1 ++ D2) := by
      unfold analyze_directory
      rw [hfilter]
    have hsortmem : ∀ e ∈ sortByDigest (analyze_directory md5 (D1 ++ D2)),
        e.2.1 ≠ [] ∧ ∀ nm ∈ e.2.1, matchesExeGlob nm = true := by
      intro e he
      exact analyze_members_match md5 (D1 ++ D2) e
        ((List.perm_insertionSort _ _).mem_iff.mp he)
    have hbg := buildGroups_congr (D1 ++ f :: D2) (D1 ++ D2)
      (fun nm hnm => dirLookup_congr D1 D2 f hf nm hnm)
      (sortByDigest (analyze_directory md5 (D1 ++ D2))) hsortmem
    simp only [create_deduped_structure]
    rw [htbl, hbg]
  · intro o ho
    simp only [create_deduped_structure] at ho
    cases hbg : buildGroups D (sortByDigest (analyze_directory md5 D)) with
    | none => rw [hbg] at ho; cases ho
    | some gs =>
      rw [hbg] at ho
      simp only [Option.some.injEq] at ho
      subst ho
      obtain ⟨hmap, _⟩ := buildGroups_spec D _ gs hbg
      have hfiles : ∀ g ∈ gs, g.files ≠ [] ∧
          ∀ nm ∈ g.files, matchesExeGlob nm = true := by
        intro g hg
        have h1 : (g.digest, g.files) ∈ gs.map (fun g => (g.digest, g.files)) :=
          List.mem_map_of_mem _ hg
        rw [hmap] at h1
        obtain ⟨e, he, heq⟩ := List.mem_map.mp h1
        have he' := analyze_members_match md5 D e
          ((List.perm_insertionSort _ _).mem_iff.mp he)
        have : e.2.1 = g.files := congrArg Prod.snd heq
        rw [this] at he'
        exact he'
      obtain ⟨_, hcanon⟩ := buildGroups_spec D _ gs hbg
      constructor
      · intro p hp
        simp only [List.mem_flatMap] at hp
        obtain ⟨g, hg, hpin⟩ := hp
        obtain ⟨nm, hnm, heq⟩ := List.mem_map.mp hpin
        obtain ⟨hne, hmatch⟩ := hfiles g hg
        have hcan := (hcanon g hg).1
        subst heq
        refine ⟨hmatch nm hnm, ?_⟩
        rw [hcan]
        exact hmatch _ (canonOf_mem _ hne)
      · intro q hq
        obtain ⟨g, hg, heq⟩ := List.mem_map.mp hq
        obtain ⟨hne, hmatch⟩ := hfiles g hg
        have hcan := (hcanon g hg).1
        have : q.2 = g.canonical := (congrArg Prod.snd heq).symm
        rw [this, hcan]
        exact hmatch _ (canonOf_mem _ hne)

/-- Witness for C10: a `readme.txt` and a nested `sub/x.exe` contribute
nothing, and the recorded names all match the glob. -/
theorem claim_C10_witness :
    matchesExeGlob "sub/x.exe" = false ∧
    (create_deduped_structure testHash
        ([⟨"a.exe", [1]⟩] ++ ⟨"sub/x.exe", [2]⟩ :: [⟨"b.exe", [1]⟩]) =
      create_deduped_structure testHash ([⟨"a.exe", [1]⟩] ++ [⟨"b.exe", [1]⟩]) ∧
    (∀ o, create_deduped_structure testHash [⟨"a.exe", [1]⟩, ⟨"b.exe", [1]⟩] = some o →
      (∀ p ∈ o.manifest, matchesExeGlob p.1 = true ∧ matchesExeGlob p.2 = true) ∧
      (∀ q ∈ o.canonical_files, matchesExeGlob q.2 = true))) :=
  ⟨by decide,
   claim_C10 testHash [⟨"a.exe", [1]⟩, ⟨"b.exe", [1]⟩]
     [⟨"a.exe", [1]⟩] [⟨"b.exe", [1]⟩] ⟨"sub/x.exe", [2]⟩ (by decide)⟩

/-- Claim C3 (confirmed): in every digest group the chosen canonical name
is the lexicographically least name of the group, every name of the group
is mapped to it in the manifest, and the spec's full-duplicate scenario
(three equal contents) yields canonical `a.exe`, the all-to-`a.exe`
mapping, and duplicate count 2. -/
theorem claim_C3 (md5 : Bytes → Nat) (D : List DirFile) (o : DedupOutput)
    (ho : create_deduped_structure md5 D = some o) :
    (∀ e ∈ analyze_directory md5 D,
      canonOf e.2.1 ∈ e.2.1 ∧
      (∀ nm ∈ e.2.1, strLe (canonOf e.2.1) nm = true) ∧
      (∀ nm ∈ e.2.1, (nm, canonOf e.2.1) ∈ o.manifest)) ∧
    (∀ (X : Bytes) (h2 : Bytes → Nat),
      create_deduped_structure h2 [⟨"a.exe", X⟩, ⟨"b.exe", X⟩, ⟨"c.exe", X⟩] =
        some { manifest := [("a.exe", "a.exe"), ("b.exe", "a.exe"), ("c.exe", "a.exe")],
               canonical_files := [(h2 X, "a.exe")],
               canonicalStore := [("a.exe", X)],
               stats := { total_size := (X.length : Int) * 3,
                          deduped_size := (X.length : Int),
                          savings := (X.length : Int) * 3 - X.length,
                          duplicate_count := 2 } }) := by
  constructor
  · intro e he
    have hmm := analyze_members_match md5 D e he
    refine ⟨canonOf_mem _ hmm.1, fun nm hnm => canonOf_le _ nm hnm, ?_⟩
    intro nm hnm
    simp only [create_deduped_structure] at ho
    cases hbg : buildGroups D (sortByDigest (analyze_directory md5 D)) with
    | none => rw [hbg] at ho; cases ho
    | some gs =>
      rw [hbg] at ho
      simp only [Option.some.injEq] at ho
      subst ho
      obtain ⟨hmap, hcanon⟩ := buildGroups_spec D _ gs hbg
      have he' : e ∈ sortByDigest (analyze_directory md5 D) :=
        (List.perm_insertionSort _ _).mem_iff.mpr he
      have h1 : (e.1, e.2.1) ∈
          (sortByDigest (analyze_directory md5 D)).map (fun e => (e.1, e.2.1)) :=
        List.mem_map_of_mem _ he'
      rw [← hmap] at h1
      obtain ⟨g, hg, heq⟩ := List.mem_map.mp h1
      have hgf : g.files = e.2.1 := congrArg Prod.snd heq
      simp only [List.mem_flatMap]
      refine ⟨g, hg, ?_⟩
      have hc : g.canonical = canonOf e.2.1 := by rw [(hcanon g hg).1, hgf]
      rw [hgf, hc]
      exact List.mem_map_of_mem _ hnm
  · intro X h2
    have ha : matchesExeGlob "a.exe" = true := by decide
    have hb : matchesExeGlob "b.exe" = true := by decide
    have hcg : matchesExeGlob "c.exe" = true := by decide
    have hcanon : canonOf ["a.exe", "b.exe", "c.exe"] = "a.exe" := by decide
    have htbl : analyze_directory h2 [⟨"a.exe", X⟩, ⟨"b.exe", X⟩, ⟨"c.exe", X⟩] =
        [(h2 X, (["a.exe", "b.exe", "c.exe"], X.length))] := by
      simp [analyze_directory, ha, hb, hcg, addEntry]
    have hlook : dirLookup [⟨"a.exe", X⟩, ⟨"b.exe", X⟩, ⟨"c.exe", X⟩] "a.exe" =
        some X := by
      simp [dirLookup, List.find?]
    have hbuild : buildGroups [⟨"a.exe", X⟩, ⟨"b.exe", X⟩, ⟨"c.exe", X⟩]
        [(h2 X, (["a.exe", "b.exe", "c.exe"], X.length))] =
        some [{ digest := h2 X, files := ["a.exe", "b.exe", "c.exe"],
                canonical := "a.exe", content := X }] := by
      simp only [buildGroups, hcanon, hlook]
    simp [create_deduped_structure, htbl, sortByDigest, List.insertionSort,
      hbuild, calculate_savings]

/-- Concrete dedup output used by the C3 witness. -/
def c3out : DedupOutput :=
  { manifest := [("b.exe", "a.exe"), ("a.exe", "a.exe")],
    canonical_files := [(testHash [3], "a.exe")],
    canonicalStore := [("a.exe", [3])],
    stats := { total_size := 2, deduped_size := 1, savings := 1,
               duplicate_count := 1 } }

/-- Witness for C3 at a two-name duplicate directory. -/
theorem claim_C3_witness :
    create_deduped_structure testHash [⟨"b.exe", [3]⟩, ⟨"a.exe", [3]⟩] =
      some c3out ∧
    ((∀ e ∈ analyze_directory testHash [⟨"b.exe", [3]⟩, ⟨"a.exe", [3]⟩],
      canonOf e.2.1 ∈ e.2.1 ∧
      (∀ nm ∈ e.2.1, strLe (canonOf e.2.1) nm = true) ∧
      (∀ nm ∈ e.2.1, (nm, canonOf e.2.1) ∈ c3out.manifest)) ∧
    (∀ (X : Bytes) (h2 : Bytes → Nat),
      create_deduped_structure h2 [⟨"a.exe", X⟩, ⟨"b.exe", X⟩, ⟨"c.exe", X⟩] =
        some { manifest := [("a.exe", "a.exe"), ("b.exe", "a.exe"), ("c.exe", "a.exe")],
               canonical_files := [(h2 X, "a.exe")],
               canonicalStore := [("a.exe", X)],
               stats := { total_size := (X.length : Int) * 3,
                          deduped_size := (X.length : Int),
                          savings := (X.length : Int) * 3 - X.length,
                          duplicate_count := 2 } })) :=
  ⟨by decide, claim_C3 testHash [⟨"b.exe", [3]⟩, ⟨"a.exe", [3]⟩] c3out (by decide)⟩

/-! ### Statistics of calculate_savings -/

/-- Sum of the content sizes of a list of files (spec side: the sum of
sizes over all names, each occurrence counted). -/
def sumSizes (l : List DirFile) : Int :=
  (l.map fun f => (f.content.length : Int)).sum

/-- Spec-side description of "one file per unique digest": keep each file
whose digest has not been seen before it. -/
def firstPerDigest (md5 : Bytes → Nat) : List DirFile → List Nat → List DirFile
  | [], _ => []
  | f :: fs, seen =>
      if md5 f.content ∈ seen then firstPerDigest md5 fs seen
      else f :: firstPerDigest md5 fs (md5 f.content :: seen)

/-- Digest function injective on the scanned files' contents, the
collision-freedom contract of the hash. -/
def InjOnContents (md5 : Bytes → Nat) (L : List DirFile) : Prop :=
  ∀ f1 ∈ L, ∀ f2 ∈ L, md5 f1.content = md5 f2.content → f1.content = f2.content

/-- The digests recorded in a table. -/
def tblKeys (tbl : List (Nat × List String × Nat)) : List Nat :=
  tbl.map (fun e => e.1)

theorem calculate_savings_fold (tbl : List (Nat × List String × Nat))
    (a b c : Int) :
    tbl.foldl
      (fun acc e =>
        (acc.1 + (e.2.2 : Int) * e.2.1.length,
         acc.2.1 + (e.2.2 : Int),
         acc.2.2 + if e.2.1.length > 1 then (e.2.1.length : Int) - 1 else 0))
      (a, b, c) =
      (a + (tbl.map fun e => (e.2.2 : Int) * e.2.1.length).sum,
       b + (tbl.map fun e => (e.2.2 : Int)).sum,
       c + (tbl.map fun e =>
             if e.2.1.length > 1 then (e.2.1.length : Int) - 1 else 0).sum) := by
  induction tbl generalizing a b c with
  | nil => simp
  | cons e rest ih =>
    simp only [List.foldl_cons, List.map_cons, List.sum_cons, ih]
    refine congrArg₂ _ (by ring) (congrArg₂ _ (by ring) (by ring))

theorem calculate_savings_spec (tbl : List (Nat × List String × Nat)) :
    calculate_savings tbl =
      { total_size := (tbl.map fun e => (e.2.2 : Int) * e.2.1.length).sum,
        deduped_size := (tbl.map fun e => (e.2.2 : Int)).sum,
        savings := (tbl.map fun e => (e.2.2 : Int) * e.2.1.length).sum -
          (tbl.map fun e => (e.2.2 : Int)).sum,
        duplicate_count := (tbl.map fun e =>
          if e.2.1.length > 1 then (e.2.1.length : Int) - 1 else 0).sum } := by
  simp only [calculate_savings, calculate_savings_fold]
  simp

theorem addEntry_of_mem (tbl : List (Nat × List String × Nat)) (hv : Nat)
    (nm : String) (sz : Nat) (h : hv ∈ tblKeys tbl) :
    tblKeys (addEntry tbl hv nm sz) = tblKeys tbl ∧
    (addEntry tbl hv nm sz).map (fun e => e.2.2) = tbl.map (fun e => e.2.2) := by
  induction tbl with
  | nil => simp [tblKeys] at h
  | cons e rest ih =>
    by_cases he : e.1 = hv
    · simp [addEntry, he, tblKeys]
    · have h' : hv ∈ tblKeys rest := by
        simp [tblKeys] at h
        rcases h with h | h
        · exact absurd h.symm he
        · simpa [tblKeys] using h
      have := ih h'
      simp [addEntry, he, tblKeys] at this ⊢
      exact this

theorem addEntry_of_notMem (tbl : List (Nat × List String × Nat)) (hv : Nat)
    (nm : String) (sz : Nat) (h : hv ∉ tblKeys tbl) :
    addEntry tbl hv nm sz = tbl ++ [(hv, ([nm], sz))] := by
  induction tbl with
  | nil => simp [addEntry]
  | cons e rest ih =>
    have hne : e.1 ≠ hv := by
      intro heq
      exact h (by simp [tblKeys, heq])
    have h' : hv ∉ tblKeys rest := by
      intro hmem
      exact h (by simp [tblKeys] at hmem ⊢; right; simpa [tblKeys] using hmem)
    simp [addEntry, hne, ih h']

theorem firstPerDigest_congr (md5 : Bytes → Nat) :
    ∀ (fs : List DirFile) (s1 s2 : List Nat), (∀ g, g ∈ s1 ↔ g ∈ s2) →
      firstPerDigest md5 fs s1 = firstPerDigest md5 fs s2 := by
  intro fs
  induction fs with
  | nil => intro _ _ _; rfl
  | cons f fs ih =>
    intro s1 s2 hs
    by_cases h : md5 f.content ∈ s1
    · rw [firstPerDigest, if_pos h, firstPerDigest, if_pos ((hs _).mp h), ih _ _ hs]
    · rw [firstPerDigest, if_neg h, firstPerDigest,
        if_neg (fun hm => h ((hs _).mpr hm))]
      congr 1
      apply ih
      intro g
      simp [hs g]

theorem scan_keys_sizes (md5 : Bytes → Nat) :
    ∀ (fs : List DirFile) (tbl : List (Nat × List String × Nat)),
      tblKeys (fs.foldl
          (fun tbl f => addEntry tbl (md5 f.content) f.name f.content.length) tbl) =
        tblKeys tbl ++
          (firstPerDigest md5 fs (tblKeys tbl)).map (fun f => md5 f.content) ∧
      (fs.foldl
          (fun tbl f => addEntry tbl (md5 f.content) f.name f.content.length) tbl).map
          (fun e => e.2.2) =
        tbl.map (fun e => e.2.2) ++
          (firstPerDigest md5 fs (tblKeys tbl)).map (fun f => f.content.length) := by
  intro fs
  induction fs with
  | nil => intro tbl; simp [firstPerDigest]
  | cons f fs ih =>
    intro tbl
    simp only [List.foldl_cons]
    by_cases h : md5 f.content ∈ tblKeys tbl
    · obtain ⟨hk, hs⟩ := addEntry_of_mem tbl (md5 f.content) f.name f.content.length h
      obtain ⟨ihk, ihs⟩ := ih (addEntry tbl (md5 f.content) f.name f.content.length)
      rw [firstPerDigest, if_pos h]
      constructor
      · rw [ihk, hk]
      · rw [ihs, hs, hk]
    · have hstruct := addEntry_of_notMem tbl (md5 f.content) f.name f.content.length h
      obtain ⟨ihk, ihs⟩ := ih (addEntry tbl (md5 f.content) f.name f.content.length)
      have hkeys : tblKeys (addEntry tbl (md5 f.content) f.name f.content.length) =
          tblKeys tbl ++ [md5 f.content] := by
        rw [hstruct]; simp [tblKeys]
      have hsz : (addEntry tbl (md5 f.content) f.name f.content.length).map
          (fun e => e.2.2) = tbl.map (fun e => e.2.2) ++ [f.content.length] := by
        rw [hstruct]; simp
      have hcong : firstPerDigest md5 fs (tblKeys tbl ++ [md5 f.content]) =
          firstPerDigest md5 fs (md5 f.content :: tblKeys tbl) := by
        apply firstPerDigest_congr
        intro g
        simp
        tauto
      rw [firstPerDigest, if_neg h]
      constructor
      · rw [ihk, hkeys, hcong]
        simp
      · rw [ihs, hsz, hkeys, hcong]
        simp

theorem total_addEntry (md5 : Bytes → Nat) (L : List DirFile)
    (hinj : InjOnContents md5 L) (f : DirFile) (hf : f ∈ L) :
    ∀ tbl, TblOk md5 L tbl →
      ((addEntry tbl (md5 f.content) f.name f.content.length).map
        (fun e => (e.2.2 : Int) * e.2.1.length)).sum =
      (tbl.map (fun e => (e.2.2 : Int) * e.2.1.length)).sum +
        f.content.length := by
  intro tbl
  induction tbl with
  | nil => intro _; simp [addEntry]
  | cons e rest ih =>
    intro hT
    by_cases h : e.1 = md5 f.content
    · rw [addEntry, if_pos h]
      obtain ⟨_, _, g, hgL, hgd, hglen⟩ := hT e (List.mem_cons_self _ _)
      have hgc : g.content = f.content := by
        apply hinj g hgL f hf
        rw [hgd, h]
      have hsz : (e.2.2 : Int) = (f.content.length : Int) := by
        rw [← hglen, hgc]
      simp only [List.map_cons, List.sum_cons, List.length_append,
        List.length_cons, List.length_nil]
      push_cast
      rw [hsz]
      ring
    · rw [addEntry, if_neg h]
      simp only [List.map_cons, List.sum_cons,
        ih (fun e' he' => hT e' (List.mem_cons_of_mem _ he'))]
      ring

theorem scan_total (md5 : Bytes → Nat) (L : List DirFile)
    (hinj : InjOnContents md5 L) :
    ∀ (fs : List DirFile) (tbl), (∀ f ∈ fs, f ∈ L) → TblOk md5 L tbl →
      ((fs.foldl
          (fun tbl f => addEntry tbl (md5 f.content) f.name f.content.length)
          tbl).map (fun e => (e.2.2 : Int) * e.2.1.length)).sum =
        (tbl.map (fun e => (e.2.2 : Int) * e.2.1.length)).sum + sumSizes fs := by
  intro fs
  induction fs with
  | nil => intro tbl _ _; simp [sumSizes]
  | cons f fs ih =>
    intro tbl hfs hT
    simp only [List.foldl_cons]
    rw [ih _ (fun g hg => hfs g (List.mem_cons_of_mem _ hg))
        (tblOk_addEntry md5 L f (hfs f (List.mem_cons_self _ _)) tbl hT),
      total_addEntry md5 L hinj f (hfs f (List.mem_cons_self _ _)) tbl hT]
    simp [sumSizes]
    ring

theorem dup_count_eq (tbl : List (Nat × List String × Nat))
    (h : ∀ e ∈ tbl, e.2.1 ≠ []) :
    (tbl.map fun e =>
        if e.2.1.length > 1 then (e.2.1.length : Int) - 1 else 0).sum =
      ((tblNames tbl).length : Int) - tbl.length := by
  induction tbl with
  | nil => simp [tblNames]
  | cons e rest ih =>
    have hne := h e (List.mem_cons_self _ _)
    have hlen : 1 ≤ e.2.1.length := List.length_pos.mpr hne
    have ihr := ih (fun e' he' => h e' (List.mem_cons_of_mem _ he'))
    simp only [List.map_cons, List.sum_cons, tblNames, List.flatMap_cons,
      List.length_append, List.length_cons] at ihr ⊢
    by_cases hl : e.2.1.length > 1
    · rw [if_pos hl, ihr]
      push_cast
      omega
    · rw [if_neg hl, ihr]
      have : e.2.1.length = 1 := by omega
      rw [this]
      push_cast
      omega

theorem scan_singleton (md5 : Bytes → Nat) :
    ∀ (fs : List DirFile) (tbl),
      fs.Pairwise (fun f g => md5 f.content ≠ md5 g.content) →
      (∀ f ∈ fs, md5 f.content ∉ tblKeys tbl) →
      (∀ e ∈ tbl, e.2.1.length = 1) →
      ∀ e ∈ fs.foldl
          (fun tbl f => addEntry tbl (md5 f.content) f.name f.content.length) tbl,
        e.2.1.length = 1 := by
  intro fs
  induction fs with
  | nil => intro tbl _ _ h1; exact h1
  | cons f fs ih =>
    intro tbl hpw hnew h1
    simp only [List.foldl_cons]
    have hnotmem : md5 f.content ∉ tblKeys tbl :=
      hnew f (List.mem_cons_self _ _)
    have hstruct := addEntry_of_notMem tbl (md5 f.content) f.name
      f.content.length hnotmem
    apply ih
    · exact (List.pairwise_cons.mp hpw).2
    · intro g hg
      rw [hstruct]
      simp only [tblKeys, List.map_append, List.mem_append]
      rintro (hmem | hmem)
      · exact hnew g (List.mem_cons_of_mem _ hg) (by simpa [tblKeys] using hmem)
      · simp at hmem
        exact (List.pairwise_cons.mp hpw).1 g hg hmem.symm
    · intro e he
      rw [hstruct] at he
      rcases List.mem_append.mp he with hmem | hmem
      · exact h1 e hmem
      · simp at hmem
        subst hmem
        rfl

theorem canonOf_singleton (nm : String) : canonOf [nm] = nm := rfl

/-- Claim C4 (confirmed): the stats are — total size is the sum of sizes
over all scanned names (given the hash's collision freedom on the scanned
contents), deduplicated size is the sum over unique digests only (one file
per first-seen digest), savings is their difference, the duplicate count is
the number of names beyond the first of each digest group (total name count
minus distinct digest count), and a directory with pairwise distinct
digests maps every name to itself with zero savings. -/
theorem claim_C4 (md5 : Bytes → Nat) (D : List DirFile) (o : DedupOutput)
    (ho : create_deduped_structure md5 D = some o) :
    (InjOnContents md5 (D.filter fun f => matchesExeGlob f.name) →
      o.stats.total_size = sumSizes (D.filter fun f => matchesExeGlob f.name)) ∧
    o.stats.deduped_size =
      sumSizes (firstPerDigest md5 (D.filter fun f => matchesExeGlob f.name) []) ∧
    o.stats.savings = o.stats.total_size - o.stats.deduped_size ∧
    o.stats.duplicate_count =
      ((D.filter fun f => matchesExeGlob f.name).length : Int) -
        (firstPerDigest md5 (D.filter fun f => matchesExeGlob f.name) []).length ∧
    ((D.filter fun f => matchesExeGlob f.name).Pairwise
        (fun f g => md5 f.content ≠ md5 g.content) →
      (∀ p ∈ o.manifest, p.2 = p.1) ∧ o.stats.savings = 0) := by
  simp only [create_deduped_structure] at ho
  cases hbg : buildGroups D (sortByDigest (analyze_directory md5 D)) with
  | none => rw [hbg] at ho; cases ho
  | some gs =>
  rw [hbg] at ho
  simp only [Option.some.injEq] at ho
  subst ho
  have hspec := calculate_savings_spec (analyze_directory md5 D)
  have hkeys := (scan_keys_sizes md5 (D.filter fun f => matchesExeGlob f.name) []).1
  have hsizes := (scan_keys_sizes md5 (D.filter fun f => matchesExeGlob f.name) []).2
  simp only [tblKeys, List.map_nil, List.nil_append] at hkeys hsizes
  have hana : ((D.filter fun f => matchesExeGlob f.name).foldl
      (fun tbl f => addEntry tbl (md5 f.content) f.name f.content.length) []) =
      analyze_directory md5 D := rfl
  rw [hana] at hkeys hsizes
  have hnonempty : ∀ e ∈ analyze_directory md5 D, e.2.1 ≠ [] :=
    fun e he => (analyze_members_match md5 D e he).1
  have htotal : InjOnContents md5 (D.filter fun f => matchesExeGlob f.name) →
      (calculate_savings (analyze_directory md5 D)).total_size =
        sumSizes (D.filter fun f => matchesExeGlob f.name) := by
    intro hinj
    rw [hspec]
    have := scan_total md5 _ hinj (D.filter fun f => matchesExeGlob f.name) []
      (fun f hf => hf) (tblOk_nil md5 _)
    rw [hana] at this
    simpa using this
  have hdedup : (calculate_savings (analyze_directory md5 D)).deduped_size =
      sumSizes (firstPerDigest md5 (D.filter fun f => matchesExeGlob f.name) []) := by
    rw [hspec]
    show ((analyze_directory md5 D).map fun e => (e.2.2 : Int)).sum =
      sumSizes (firstPerDigest md5 (D.filter fun f => matchesExeGlob f.name) [])
    have hcast := congrArg (List.map (fun n : Nat => (n : Int))) hsizes
    rw [List.map_map, List.map_map] at hcast
    exact congrArg List.sum hcast
  have hdup : (calculate_savings (analyze_directory md5 D)).duplicate_count =
      ((D.filter fun f => matchesExeGlob f.name).length : Int) -
        (firstPerDigest md5 (D.filter fun f => matchesExeGlob f.name) []).length := by
    rw [hspec]
    show ((analyze_directory md5 D).map fun e =>
      if e.2.1.length > 1 then (e.2.1.length : Int) - 1 else 0).sum = _
    rw [dup_count_eq _ hnonempty]
    have hlen1 : (tblNames (analyze_directory md5 D)).length =
        (D.filter fun f => matchesExeGlob f.name).length := by
      rw [(analyze_names_perm md5 D).length_eq]
      simp
    have hlen2 : (analyze_directory md5 D).length =
        (firstPerDigest md5 (D.filter fun f => matchesExeGlob f.name) []).length := by
      have := congrArg List.length hkeys
      simpa using this
    rw [hlen1, hlen2]
  refine ⟨htotal, hdedup, by simp [hspec], hdup, ?_⟩
  intro hpw
  have hsingle : ∀ e ∈ analyze_directory md5 D, e.2.1.length = 1 := by
    have := scan_singleton md5 (D.filter fun f => matchesExeGlob f.name) [] hpw
      (by intro f hf; simp [tblKeys]) (by intro e he; simp at he)
    rw [hana] at this
    exact this
  constructor
  · intro p hp
    obtain ⟨hmap, hcanon⟩ := buildGroups_spec D _ gs hbg
    simp only [List.mem_flatMap] at hp
    obtain ⟨g, hg, hpin⟩ := hp
    obtain ⟨nm, hnm, heq⟩ := List.mem_map.mp hpin
    have h1 : (g.digest, g.files) ∈ gs.map (fun g => (g.digest, g.files)) :=
      List.mem_map_of_mem _ hg
    rw [hmap] at h1
    obtain ⟨e, he, heq2⟩ := List.mem_map.mp h1
    have hgf : e.2.1 = g.files := congrArg Prod.snd heq2
    have hmemtbl : e ∈ analyze_directory md5 D :=
      (List.perm_insertionSort _ _).mem_iff.mp he
    have hlen := hsingle e hmemtbl
    rw [hgf] at hlen
    obtain ⟨a, ha⟩ := List.length_eq_one.mp hlen
    rw [ha] at hnm
    simp at hnm
    subst hnm
    have hcan := (hcanon g hg).1
    rw [ha, canonOf_singleton] at hcan
    subst heq
    simp [hcan]
  · have hmapeq : ((analyze_directory md5 D).map
        fun e => (e.2.2 : Int) * e.2.1.length) =
        ((analyze_directory md5 D).map fun e => (e.2.2 : Int)) := by
      apply List.map_congr_left
      intro e he
      rw [hsingle e he]
      simp
    simp [hspec, hmapeq]

/-- Concrete directory for the C4 witness: one duplicate pair and one
distinct file. -/
def c4dir : List DirFile := [⟨"a.exe", [1]⟩, ⟨"b.exe", [1]⟩, ⟨"c.exe", [2, 2]⟩]

/-- Concrete dedup output for the C4 witness. -/
def c4out : DedupOutput :=
  { manifest := [("a.exe", "a.exe"), ("b.exe", "a.exe"), ("c.exe", "c.exe")],
    canonical_files := [(testHash [1], "a.exe"), (testHash [2, 2], "c.exe")],
    canonicalStore := [("a.exe", [1]), ("c.exe", [2, 2])],
    stats := { total_size := 4, deduped_size := 3, savings := 1,
               duplicate_count := 1 } }

/-- Witness for C4. -/
theorem claim_C4_witness :
    create_deduped_structure testHash c4dir = some c4out ∧
    ((InjOnContents testHash (c4dir.filter fun f => matchesExeGlob f.name) →
      c4out.stats.total_size =
        sumSizes (c4dir.filter fun f => matchesExeGlob f.name)) ∧
    c4out.stats.deduped_size =
      sumSizes (firstPerDigest testHash
        (c4dir.filter fun f => matchesExeGlob f.name) []) ∧
    c4out.stats.savings = c4out.stats.total_size - c4out.stats.deduped_size ∧
    c4out.stats.duplicate_count =
      ((c4dir.filter fun f => matchesExeGlob f.name).length : Int) -
        (firstPerDigest testHash
          (c4dir.filter fun f => matchesExeGlob f.name) []).length ∧
    ((c4dir.filter fun f => matchesExeGlob f.name).Pairwise
        (fun f g => testHash f.content ≠ testHash g.content) →
      (∀ p ∈ c4out.manifest, p.2 = p.1) ∧ c4out.stats.savings = 0)) :=
  ⟨by decide, claim_C4 testHash c4dir c4out (by decide)⟩

/-! ### Lookup and uniqueness lemmas for the round trip -/

theorem dirLookup_of_mem_nodup (D : List DirFile)
    (hnd : (D.map DirFile.name).Nodup) (nm : String) (b : Bytes)
    (hmem : DirFile.mk nm b ∈ D) : dirLookup D nm = some b := by
  induction D with
  | nil => simp at hmem
  | cons g rest ih =>
    simp only [List.map_cons, List.nodup_cons] at hnd
    rcases List.mem_cons.mp hmem with rfl | hmem'
    · simp [dirLookup, List.find?]
    · have hne : g.name ≠ nm := by
        intro heq
        apply hnd.1
        rw [heq]
        exact List.mem_map_of_mem DirFile.name hmem'
      have : (g.name == nm) = false := by simp [hne]
      simp only [dirLookup, List.find?, this]
      exact ih hnd.2 hmem'

theorem storeLookup_of_mem_nodup (store : List (String × Bytes))
    (hnd : (store.map Prod.fst).Nodup) (k : String) (v : Bytes)
    (hmem : (k, v) ∈ store) : storeLookup store k = some v := by
  induction store with
  | nil => simp at hmem
  | cons g rest ih =>
    simp only [List.map_cons, List.nodup_cons] at hnd
    rcases List.mem_cons.mp hmem with rfl | hmem'
    · simp [storeLookup, List.find?]
    · have hne : g.1 ≠ k := by
        intro heq
        apply hnd.1
        rw [heq]
        exact List.mem_map_of_mem Prod.fst hmem'
      have : (g.1 == k) = false := by simp [hne]
      simp only [storeLookup, List.find?, this]
      exact ih hnd.2 hmem'

theorem content_unique (D : List DirFile) (hnd : (D.map DirFile.name).Nodup)
    (f g : DirFile) (hf : f ∈ D) (hg : g ∈ D) (hname : f.name = g.name) :
    f = g := by
  induction D with
  | nil => simp at hf
  | cons d rest ih =>
    simp only [List.map_cons, List.nodup_cons] at hnd
    rcases List.mem_cons.mp hf with rfl | hf' <;>
      rcases List.mem_cons.mp hg with rfl | hg'
    · rfl
    · exact absurd (hname ▸ List.mem_map_of_mem DirFile.name hg') hnd.1
    · exact absurd (hname ▸ List.mem_map_of_mem DirFile.name hf') hnd.1
    · exact ih hnd.2 hf' hg'

theorem canonicals_nodup (gs : List DedupGroup)
    (hcf : ∀ g ∈ gs, g.canonical ∈ g.files)
    (hnd : (gs.flatMap (fun g => g.files)).Nodup) :
    (gs.map (fun g => g.canonical)).Nodup := by
  induction gs with
  | nil => simp
  | cons g rest ih =>
    simp only [List.flatMap_cons, List.nodup_append] at hnd
    obtain ⟨h1, h2, hdisj⟩ := hnd
    simp only [List.map_cons, List.nodup_cons]
    constructor
    · intro hmem
      obtain ⟨g', hg', heq⟩ := List.mem_map.mp hmem
      have hc' : g'.canonical ∈ g'.files := hcf g' (List.mem_cons_of_mem _ hg')
      have hin : g'.canonical ∈ rest.flatMap (fun g => g.files) :=
        List.mem_flatMap.mpr ⟨g', hg', hc'⟩
      have hcg : g.canonical ∈ g.files := hcf g (List.mem_cons_self _ _)
      rw [heq] at hin
      exact hdisj hcg hin
    · exact ih (fun g' hg' => hcf g' (List.mem_cons_of_mem _ hg')) h2

theorem buildGroups_total (src : List DirFile) :
    ∀ (tbl : List (Nat × List String × Nat)),
      (∀ e ∈ tbl, ∃ b, dirLookup src (canonOf e.2.1) = some b) →
      ∃ gs, buildGroups src tbl = some gs := by
  intro tbl
  induction tbl with
  | nil => intro _; exact ⟨[], rfl⟩
  | cons e rest ih =>
    intro h
    obtain ⟨b, hb⟩ := h e (List.mem_cons_self _ _)
    obtain ⟨gs, hgs⟩ := ih (fun e' he' => h e' (List.mem_cons_of_mem _ he'))
    refine ⟨{ digest := e.1, files := e.2.1, canonical := canonOf e.2.1,
              content := b } :: gs, ?_⟩
    simp only [buildGroups, hb, hgs]

theorem expand_spec (store : List (String × Bytes)) :
    ∀ (l : List (String × String)),
      (∀ p ∈ l, ∃ b, storeLookup store p.2 = some b) →
      ∃ out, expand_deduped_structure store l = some out ∧
        out.map Prod.fst = l.map Prod.fst ∧
        ∀ q ∈ out, ∃ c, (q.1, c) ∈ l ∧ storeLookup store c = some q.2 := by
  intro l
  induction l with
  | nil => intro _; exact ⟨[], rfl, rfl, by simp⟩
  | cons p rest ih =>
    intro h
    obtain ⟨b, hb⟩ := h p (List.mem_cons_self _ _)
    obtain ⟨out, hout, hnames, hmem⟩ :=
      ih (fun p' hp' => h p' (List.mem_cons_of_mem _ hp'))
    refine ⟨(p.1, b) :: out, ?_, by simp [hnames], ?_⟩
    · cases p with
      | mk n c =>
        simp only [expand_deduped_structure] at hb hout ⊢
        rw [hb, hout]
    · intro q hq
      rcases List.mem_cons.mp hq with rfl | hq'
      · exact ⟨p.2, List.mem_cons_self _ _, hb⟩
      · obtain ⟨c, hc1, hc2⟩ := hmem q hq'
        exact ⟨c, List.mem_cons_of_mem _ hc1, hc2⟩

/-- Claim C1, amended to the scanned file set (see the counterexample for
the original wording): expanding the dedup output of `D` succeeds and
reproduces exactly the top-level `*.exe` files of `D` — the output names
are a permutation of those names, and each output file's digest equals the
digest of the equally named original. -/
theorem claim_C1 (md5 : Bytes → Nat) (D : List DirFile)
    (hnd : (D.map DirFile.name).Nodup) :
    ∃ out, dedup_then_expand md5 D = some out ∧
      (out.map Prod.fst).Perm
        ((D.filter fun f => matchesExeGlob f.name).map DirFile.name) ∧
      ∀ q ∈ out, ∀ f ∈ D, f.name = q.1 → md5 q.2 = md5 f.content := by
  have hndD' : ((D.filter fun f => matchesExeGlob f.name).map DirFile.name).Nodup :=
    List.Nodup.sublist ((List.filter_sublist D).map DirFile.name) hnd
  have hTokTbl := analyze_tblOk md5 D
  have hps : (sortByDigest (analyze_directory md5 D)).Perm
      (analyze_directory md5 D) := List.perm_insertionSort _ _
  have hTok : TblOk md5 (D.filter fun f => matchesExeGlob f.name)
      (sortByDigest (analyze_directory md5 D)) :=
    tblOk_of_perm md5 _ _ _ hps.symm hTokTbl
  have hlookups : ∀ e ∈ sortByDigest (analyze_directory md5 D),
      ∃ b, dirLookup D (canonOf e.2.1) = some b := by
    intro e he
    obtain ⟨hne, hmemb, _⟩ := hTok e he
    obtain ⟨b, hbD', _⟩ := hmemb _ (canonOf_mem _ hne)
    exact ⟨b, dirLookup_of_mem_nodup D hnd _ b ((List.filter_sublist D).subset hbD')⟩
  obtain ⟨gs, hbg⟩ := buildGroups_total D _ hlookups
  obtain ⟨hmap, hcanon⟩ := buildGroups_spec D _ gs hbg
  have hgrp : ∀ g ∈ gs, ∃ e ∈ sortByDigest (analyze_directory md5 D),
      e.1 = g.digest ∧ e.2.1 = g.files := by
    intro g hg
    have h1 : (g.digest, g.files) ∈ gs.map (fun g => (g.digest, g.files)) :=
      List.mem_map_of_mem _ hg
    rw [hmap] at h1
    obtain ⟨e, he, heq⟩ := List.mem_map.mp h1
    exact ⟨e, he, congrArg Prod.fst heq, congrArg Prod.snd heq⟩
  have hfne : ∀ g ∈ gs, g.files ≠ [] := by
    intro g hg
    obtain ⟨e, he, _, hfe⟩ := hgrp g hg
    have := (hTok e he).1
    rw [hfe] at this
    exact this
  have hcf : ∀ g ∈ gs, g.canonical ∈ g.files := by
    intro g hg
    rw [(hcanon g hg).1]
    exact canonOf_mem _ (hfne g hg)
  have hfilesEq : gs.map (fun g => g.files) =
      (sortByDigest (analyze_directory md5 D)).map (fun e => e.2.1) := by
    have := congrArg (List.map Prod.snd) hmap
    rw [List.map_map, List.map_map] at this
    exact this
  have hflatperm : (gs.flatMap (fun g => g.files)).Perm
      ((D.filter fun f => matchesExeGlob f.name).map DirFile.name) := by
    have h1 : gs.flatMap (fun g => g.files) =
        tblNames (sortByDigest (analyze_directory md5 D)) := by
      rw [List.flatMap_def, hfilesEq, tblNames, List.flatMap_def]
    have h2 : (tblNames (sortByDigest (analyze_directory md5 D))).Perm
        (tblNames (analyze_directory md5 D)) := by
      rw [tblNames, tblNames, List.flatMap_def, List.flatMap_def]
      exact (hps.map _).flatten
    rw [h1]
    exact h2.trans (analyze_names_perm md5 D)
  have hflatnodup : (gs.flatMap (fun g => g.files)).Nodup :=
    hflatperm.symm.nodup hndD'
  have hkeysnodup : ((gs.map (fun g => (g.canonical, g.content))).map Prod.fst).Nodup := by
    rw [List.map_map]
    exact canonicals_nodup gs hcf hflatnodup
  have hstore : ∀ g ∈ gs,
      storeLookup (gs.map (fun g => (g.canonical, g.content))) g.canonical =
        some g.content := by
    intro g hg
    exact storeLookup_of_mem_nodup _ hkeysnodup _ _ (List.mem_map_of_mem _ hg)
  have hmanifest : ∀ p ∈ gs.flatMap (fun g => g.files.map (fun n => (n, g.canonical))),
      ∃ b, storeLookup (gs.map (fun g => (g.canonical, g.content))) p.2 = some b := by
    intro p hp
    obtain ⟨g, hg, hpin⟩ := List.mem_flatMap.mp hp
    obtain ⟨nm, _, heq⟩ := List.mem_map.mp hpin
    subst heq
    exact ⟨g.content, hstore g hg⟩
  obtain ⟨out, hout, hnames, hmem⟩ := expand_spec _ _ hmanifest
  refine ⟨out, ?_, ?_, ?_⟩
  · simp only [dedup_then_expand, create_deduped_structure, hbg]
    exact hout
  · rw [hnames]
    have hfst : (gs.flatMap (fun g => g.files.map (fun n => (n, g.canonical)))).map
        Prod.fst = gs.flatMap (fun g => g.files) := by
      rw [List.map_flatMap]
      apply List.flatMap_congr
      intro g _
      rw [List.map_map]
      exact List.map_id _
    rw [hfst]
    exact hflatperm
  · intro q hq f hf hname
    obtain ⟨c, hc1, hc2⟩ := hmem q hq
    obtain ⟨g, hg, hpin⟩ := List.mem_flatMap.mp hc1
    obtain ⟨nm, hnm, heq⟩ := List.mem_map.mp hpin
    have hnmq : nm = q.1 := congrArg Prod.fst heq
    have hcq : c = g.canonical := (congrArg Prod.snd heq).symm
    rw [hcq] at hc2
    have hcontent : q.2 = g.content :=
      Option.some.inj (hc2.symm.trans (hstore g hg))
    obtain ⟨e, he, hde, hfe⟩ := hgrp g hg
    obtain ⟨hne, hmemb, _⟩ := hTok e he
    obtain ⟨bc, hbcD', hbcdig⟩ := hmemb g.canonical (by rw [hfe]; exact hcf g hg)
    have hlookc : dirLookup D g.canonical = some bc :=
      dirLookup_of_mem_nodup D hnd _ bc ((List.filter_sublist D).subset hbcD')
    have hgc : g.content = bc :=
      Option.some.inj ((hcanon g hg).2.symm.trans hlookc)
    obtain ⟨bq, hbqD', hbqdig⟩ := hmemb nm (by rw [hfe]; exact hnm)
    have hfq : f = DirFile.mk nm bq := by
      apply content_unique D hnd f (DirFile.mk nm bq) hf
        ((List.filter_sublist D).subset hbqD')
      rw [hname, ← hnmq]
    rw [hcontent, hgc, hbcdig, ← hbqdig, hfq]

/-- Counterexample to C1 as stated: a directory whose only file is
`readme.txt` (not a top-level `*.exe`) round-trips to an empty output, so
the expanded name set does not equal the input name set. -/
theorem claim_C1_counterexample :
    dedup_then_expand testHash [⟨"readme.txt", [1]⟩] = some [] ∧
    [DirFile.mk "readme.txt" [1]].map DirFile.name = ["readme.txt"] ∧
    (([] : List (String × Bytes)).map Prod.fst ≠ ["readme.txt"]) := by decide

/-- Witness for the amended C1 at a directory with a duplicate pair and a
file the scan ignores. -/
theorem claim_C1_witness :
    (([⟨"b.exe", [7]⟩, ⟨"a.exe", [7]⟩, ⟨"readme.txt", [9]⟩] : List DirFile).map
      DirFile.name).Nodup ∧
    (∃ out, dedup_then_expand testHash
        [⟨"b.exe", [7]⟩, ⟨"a.exe", [7]⟩, ⟨"readme.txt", [9]⟩] = some out ∧
      (out.map Prod.fst).Perm
        ((([⟨"b.exe", [7]⟩, ⟨"a.exe", [7]⟩, ⟨"readme.txt", [9]⟩] : List DirFile).filter
          fun f => matchesExeGlob f.name).map DirFile.name) ∧
      ∀ q ∈ out, ∀ f ∈ ([⟨"b.exe", [7]⟩, ⟨"a.exe", [7]⟩, ⟨"readme.txt", [9]⟩] : List DirFile),
        f.name = q.1 → testHash q.2 = testHash f.content) :=
  ⟨by decide,
   claim_C1 testHash [⟨"b.exe", [7]⟩, ⟨"a.exe", [7]⟩, ⟨"readme.txt", [9]⟩] (by decide)⟩

/-! ### The permission policy of the packager -/

/-- Spec-side predicate: the path matches some rule of the ordered policy
of `tar_filter`. -/
def policyMatched (name : String) : Bool :=
  (strContainsSub name "/bin/" && !(strContainsSub name "/lib/")) ||
  (strContainsSub name "/lib/" &&
    (strEndsWithAny name [".h", ".inc", ".modulemap", ".tcc", ".txt", ".a", ".syms"] ||
     (strEndsWithAny name [".so", ".dylib"] || strContainsSub name ".so.") ||
     (strContainsSub name "/bin/" &&
      !(strEndsWithAny name [".h", ".inc", ".txt", ".a", ".so", ".dylib"]))))

/-- Spec-side mode of the ordered policy rules, defined without reference
to any source filesystem mode. -/
def policyMode (name : String) : Nat :=
  if strContainsSub name "/bin/" && !(strContainsSub name "/lib/") then 0o755
  else if strEndsWithAny name
    [".h", ".inc", ".modulemap", ".tcc", ".txt", ".a", ".syms"] then 0o644
  else 0o755

/-- Counterexample to C5 as stated: a regular file under neither the `bin`
root nor the `lib` root keeps whatever mode the source filesystem gave it
(two different source modes give two different stored modes), instead of
receiving the default data mode 0o644. -/
theorem claim_C5_counterexample :
    tar_filter "pkg/docs/readme.md" true 0o600 = 0o600 ∧
    tar_filter "pkg/docs/readme.md" true 0o755 = 0o755 ∧
    (0o600 : Nat) ≠ 0o644 := by decide

/-- Claim C5, amended: for a regular file matching some policy rule the
stored mode is the rule's mode, independent of the source mode; a file
matching no rule (and any non-file entry) retains the source filesystem
mode. -/
theorem claim_C5 (name : String) (m : Nat) :
    tar_filter name true m = (if policyMatched name then policyMode name else m) ∧
    tar_filter name false m = m := by
  constructor
  · unfold tar_filter policyMatched policyMode
    cases h1 : strContainsSub name "/bin/" <;>
      cases h2 : strContainsSub name "/lib/" <;>
        cases h3 : strEndsWithAny name
          [".h", ".inc", ".modulemap", ".tcc", ".txt", ".a", ".syms"] <;>
          cases h4 : strEndsWithAny name [".so", ".dylib"] <;>
            cases h5 : strContainsSub name ".so." <;>
              cases h6 : strEndsWithAny name
                [".h", ".inc", ".txt", ".a", ".so", ".dylib"] <;>
                simp [h1, h2, h3, h4, h5, h6]
  · rfl

/-- Claim C6 (the code contradicts it): `tar_filter` stores mode 0o644 for
a header file lying under a `bin` directory inside the `lib` root (the
header rule is checked first there), but `verify_tar_permissions` checks
its `bin` rule first without excluding `lib` paths, demands the executable
bit on that very entry, records a mismatch and fails the run — a false
positive on an archive the packager itself just produced. -/
theorem claim_C6_bug :
    tar_filter "pkg/lib/clang/21/bin/inject.h" true 0o600 = 0o644 ∧
    packageArchive [("pkg/lib/clang/21/bin/inject.h", true, 0o600)] =
      [("pkg/lib/clang/21/bin/inject.h", true, 0o644)] ∧
    verify_tar_permissions
        (packageArchive [("pkg/lib/clang/21/bin/inject.h", true, 0o600)]) =
      [("pkg/lib/clang/21/bin/inject.h", 0o644, "binary missing executable")] ∧
    verify_tar_run
        (packageArchive [("pkg/lib/clang/21/bin/inject.h", true, 0o600)]) =
      Except.error "Tar archive has 1 files with incorrect permissions" := by
  refine ⟨by decide, by decide, by decide, ?_⟩
  rfl

/-! ### The checksum sidecars -/

/-- Counterexample to C9 as stated: the sidecar line is
`"<hex-digest> *<filename>\n"` — one space and an asterisk (the
`sha256sum` binary-mode marker) — not `"<hex-digest>  <filename>\n"`. -/
theorem claim_C9_counterexample :
    (generate_checksums (fun _ => "d41d8cd98f") (fun _ => "ffff")
        "clang.tar.zst" [1, 2]).2 =
      [("clang.tar.zst.sha256", "d41d8cd98f *clang.tar.zst\n"),
       ("clang.tar.zst.md5", "ffff *clang.tar.zst\n")] ∧
    "d41d8cd98f *clang.tar.zst\n" ≠
      "d41d8cd98f" ++ "  " ++ "clang.tar.zst" ++ "\n" := by decide

/-- Claim C9, amended: the checksum step writes a `.sha256` sidecar (and an
`.md5` one) containing the single line `"<hex-digest> *<filename>\n"`,
where the digest is computed from the complete bytes of the finalized
artifact. -/
theorem claim_C9 (sha256h md5h : Bytes → String) (archiveName : String)
    (archive : Bytes) :
    (generate_checksums sha256h md5h archiveName archive).2 =
      [(archiveName ++ ".sha256",
        sha256h archive ++ " *" ++ archiveName ++ "\n"),
       (archiveName ++ ".md5",
        md5h archive ++ " *" ++ archiveName ++ "\n")] ∧
    (generate_checksums sha256h md5h archiveName archive).1 =
      (sha256h archive, md5h archive) :=
  ⟨rfl, rfl⟩

/-! ### Behaviour of the hardlink expansion loop -/

theorem assoc_unique {β : Type} (l : List (String × β))
    (hnd : (l.map Prod.fst).Nodup) (k : String) (v1 v2 : β)
    (h1 : (k, v1) ∈ l) (h2 : (k, v2) ∈ l) : v1 = v2 := by
  induction l with
  | nil => simp at h1
  | cons p rest ih =>
    simp only [List.map_cons, List.nodup_cons] at hnd
    rcases List.mem_cons.mp h1 with rfl | h1' <;>
      rcases List.mem_cons.mp h2 with heq | h2'
    · exact (congrArg Prod.snd heq).symm
    · exact absurd (List.mem_map_of_mem Prod.fst h2') (by simpa using hnd.1)
    · rw [← heq] at hnd
      exact absurd (List.mem_map_of_mem Prod.fst h1') (by simpa using hnd.1)
    · exact ih hnd.2 h1' h2'

theorem hardlinkLoop_mem_out (store : List (String × Bytes)) (lf : String → Bool) :
    ∀ (l : List (String × String)) (copied : List String) (fn c : String) (b : Bytes),
      (fn, c) ∈ l → storeLookup store c = some b →
      (fn, b) ∈ (hardlinkLoop store lf l copied).outFiles := by
  intro l
  induction l with
  | nil => intro copied fn c b h _; simp at h
  | cons p rest ih =>
    intro copied fn c b hmem hl
    obtain ⟨f0, c0⟩ := p
    rcases List.mem_cons.mp hmem with heq | hmem'
    · simp only [Prod.mk.injEq] at heq
      obtain ⟨rfl, rfl⟩ := heq
      simp only [hardlinkLoop, hl]
      by_cases hc0 : c ∈ copied
      · simp [hc0]
      · simp [hc0]
    · cases hl0 : storeLookup store c0 with
      | none =>
        simp only [hardlinkLoop, hl0]
        exact ih copied fn c b hmem' hl
      | some b0 =>
        by_cases hc0 : c0 ∈ copied
        · simp only [hardlinkLoop, hl0, if_pos hc0]
          exact List.mem_cons_of_mem _ (ih copied fn c b hmem' hl)
        · simp only [hardlinkLoop, hl0, if_neg hc0]
          exact List.mem_cons_of_mem _ (ih (c0 :: copied) fn c b hmem' hl)

theorem hardlinkLoop_out_indep (store : List (String × Bytes))
    (lf1 lf2 : String → Bool) :
    ∀ (l : List (String × String)) (copied : List String),
      (hardlinkLoop store lf1 l copied).outFiles =
        (hardlinkLoop store lf2 l copied).outFiles := by
  intro l
  induction l with
  | nil => intro copied; rfl
  | cons p rest ih =>
    intro copied
    obtain ⟨f0, c0⟩ := p
    cases hl0 : storeLookup store c0 with
    | none =>
      simp only [hardlinkLoop, hl0]
      exact ih copied
    | some b0 =>
      by_cases hc0 : c0 ∈ copied
      · simp only [hardlinkLoop, hl0, if_pos hc0]
        rw [ih copied]
      · simp only [hardlinkLoop, hl0, if_neg hc0]
        rw [ih (c0 :: copied)]

theorem hardlinkLoop_warn_missing (store : List (String × Bytes))
    (lf : String → Bool) :
    ∀ (l : List (String × String)) (copied : List String) (fn c : String),
      (fn, c) ∈ l → storeLookup store c = none →
      ("Warning: Canonical file not found: " ++ c) ∈
        (hardlinkLoop store lf l copied).warnings := by
  intro l
  induction l with
  | nil => intro copied fn c h _; simp at h
  | cons p rest ih =>
    intro copied fn c hmem hmiss
    obtain ⟨f0, c0⟩ := p
    rcases List.mem_cons.mp hmem with heq | hmem'
    · simp only [Prod.mk.injEq] at heq
      obtain ⟨rfl, rfl⟩ := heq
      simp only [hardlinkLoop, hmiss]
      simp
    · cases hl0 : storeLookup store c0 with
      | none =>
        simp only [hardlinkLoop, hl0]
        exact List.mem_cons_of_mem _ (ih copied fn c hmem' hmiss)
      | some b0 =>
        by_cases hc0 : c0 ∈ copied
        · simp only [hardlinkLoop, hl0, if_pos hc0]
          cases hlf : lf f0
          · simpa [hlf] using ih copied fn c hmem' hmiss
          · simpa [hlf] using
              List.mem_cons_of_mem ("Warning: Hard link failed, using copy instead: " ++ f0)
                (ih copied fn c hmem' hmiss)
        · simp only [hardlinkLoop, hl0, if_neg hc0]
          exact ih (c0 :: copied) fn c hmem' hmiss

theorem hardlinkLoop_out_src (store : List (String × Bytes)) (lf : String → Bool) :
    ∀ (l : List (String × String)) (copied : List String) (q : String × Bytes),
      q ∈ (hardlinkLoop store lf l copied).outFiles →
      ∃ c, (q.1, c) ∈ l ∧ storeLookup store c = some q.2 := by
  intro l
  induction l with
  | nil => intro copied q h; simp [hardlinkLoop] at h
  | cons p rest ih =>
    intro copied q hq
    obtain ⟨f0, c0⟩ := p
    cases hl0 : storeLookup store c0 with
    | none =>
      simp only [hardlinkLoop, hl0] at hq
      obtain ⟨c, hc1, hc2⟩ := ih copied q hq
      exact ⟨c, List.mem_cons_of_mem _ hc1, hc2⟩
    | some b0 =>
      by_cases hc0 : c0 ∈ copied <;>
        [simp only [hardlinkLoop, hl0, if_pos hc0] at hq;
         simp only [hardlinkLoop, hl0, if_neg hc0] at hq] <;>
        rcases List.mem_cons.mp hq with rfl | hq'
      · exact ⟨c0, List.mem_cons_self _ _, hl0⟩
      · obtain ⟨c, hc1, hc2⟩ := ih copied q hq'
        exact ⟨c, List.mem_cons_of_mem _ hc1, hc2⟩
      · exact ⟨c0, List.mem_cons_self _ _, hl0⟩
      · obtain ⟨c, hc1, hc2⟩ := ih (c0 :: copied) q hq'
        exact ⟨c, List.mem_cons_of_mem _ hc1, hc2⟩

theorem hardlinkLoop_warn_link (store : List (String × Bytes)) (lf : String → Bool) :
    ∀ (pre : List (String × String)) (post : List (String × String))
      (copied : List String) (fn c : String) (b : Bytes),
      storeLookup store c = some b → (c ∈ copied ∨ c ∈ pre.map Prod.snd) →
      lf fn = true →
      ("Warning: Hard link failed, using copy instead: " ++ fn) ∈
        (hardlinkLoop store lf (pre ++ (fn, c) :: post) copied).warnings := by
  intro pre
  induction pre with
  | nil =>
    intro post copied fn c b hl hdisj hfail
    have hc : c ∈ copied := by
      rcases hdisj with h | h
      · exact h
      · simp at h
    simp only [List.nil_append, hardlinkLoop, hl, if_pos hc, hfail]
    simp
  | cons p pre ih =>
    intro post copied fn c b hl hdisj hfail
    obtain ⟨f0, c0⟩ := p
    simp only [List.cons_append]
    cases hl0 : storeLookup store c0 with
    | none =>
      have hne : c ≠ c0 := by
        intro h
        rw [h] at hl
        rw [hl] at hl0
        cases hl0
      have hdisj' : c ∈ copied ∨ c ∈ pre.map Prod.snd := by
        rcases hdisj with h | h
        · exact Or.inl h
        · simp only [List.map_cons, List.mem_cons] at h
          rcases h with h | h
          · exact absurd h hne
          · exact Or.inr h
      simp only [hardlinkLoop, hl0]
      exact List.mem_cons_of_mem _ (ih post copied fn c b hl hdisj' hfail)
    | some b0 =>
      by_cases hc0 : c0 ∈ copied
      · have hdisj' : c ∈ copied ∨ c ∈ pre.map Prod.snd := by
          rcases hdisj with h | h
          · exact Or.inl h
          · simp only [List.map_cons, List.mem_cons] at h
            rcases h with h | h
            · rw [h]; exact Or.inl hc0
            · exact Or.inr h
        simp only [hardlinkLoop, hl0, if_pos hc0]
        cases hlf : lf f0
        · simpa [hlf] using ih post copied fn c b hl hdisj' hfail
        · simpa [hlf] using
            List.mem_cons_of_mem ("Warning: Hard link failed, using copy instead: " ++ f0)
              (ih post copied fn c b hl hdisj' hfail)
      · have hdisj' : c ∈ (c0 :: copied) ∨ c ∈ pre.map Prod.snd := by
          rcases hdisj with h | h
          · exact Or.inl (List.mem_cons_of_mem _ h)
          · simp only [List.map_cons, List.mem_cons] at h
            rcases h with h | h
            · rw [h]; exact Or.inl (List.mem_cons_self _ _)
            · exact Or.inr h
        simp only [hardlinkLoop, hl0, if_neg hc0]
        exact ih post (c0 :: copied) fn c b hl hdisj' hfail

/-- Counterexample to C7 as stated: with canonical `gone.exe` missing from
the store, the run does not abort — it prints a warning naming the missing
file, skips that entry, and goes on to materialize the remaining entry. -/
theorem claim_C7_counterexample :
    create_hardlink_structure [("c.exe", [1, 2])]
        [("a.exe", "gone.exe"), ("b.exe", "c.exe")] (fun _ => false) =
      { outFiles := [("b.exe", [1, 2])],
        warnings := ["Warning: Canonical file not found: gone.exe"] } := by decide

/-- Claim C7, amended: a canonical file referenced by the manifest but
missing from the canonical store is not fatal — the expansion logs a
warning naming it, produces no file for that entry, and still materializes
every entry whose canonical file exists. -/
theorem claim_C7 (store : List (String × Bytes)) (manifest : List (String × String))
    (linkFails : String → Bool) (fn c : String)
    (hnd : (manifest.map Prod.fst).Nodup)
    (hmem : (fn, c) ∈ manifest) (hmiss : storeLookup store c = none) :
    ("Warning: Canonical file not found: " ++ c) ∈
      (create_hardlink_structure store manifest linkFails).warnings ∧
    fn ∉ (create_hardlink_structure store manifest linkFails).outFiles.map Prod.fst ∧
    (∀ fn' c' b, (fn', c') ∈ manifest → storeLookup store c' = some b →
      (fn', b) ∈ (create_hardlink_structure store manifest linkFails).outFiles) := by
  have hperm : (sortManifest manifest).Perm manifest := List.perm_insertionSort _ _
  have hmem' : (fn, c) ∈ sortManifest manifest := hperm.mem_iff.mpr hmem
  refine ⟨hardlinkLoop_warn_missing _ _ _ [] fn c hmem' hmiss, ?_, ?_⟩
  · intro hin
    obtain ⟨q, hq, hq1⟩ := List.mem_map.mp hin
    obtain ⟨c', hc'1, hc'2⟩ := hardlinkLoop_out_src _ _ _ [] q hq
    have hnds : ((sortManifest manifest).map Prod.fst).Nodup :=
      ((hperm.map Prod.fst).symm).nodup hnd
    rw [hq1] at hc'1
    have hcc : c' = c := assoc_unique _ hnds fn c' c hc'1 hmem'
    rw [hcc, hmiss] at hc'2
    cases hc'2
  · intro fn' c' b hm hl
    exact hardlinkLoop_mem_out _ _ _ [] fn' c' b (hperm.mem_iff.mpr hm) hl

/-- Witness for C7. -/
theorem claim_C7_witness :
    ((([("a.exe", "gone.exe"), ("b.exe", "c.exe")] : List (String × String)).map
      Prod.fst).Nodup ∧
    ("a.exe", "gone.exe") ∈
      ([("a.exe", "gone.exe"), ("b.exe", "c.exe")] : List (String × String)) ∧
    storeLookup [("c.exe", [1, 2])] "gone.exe" = none) ∧
    (("Warning: Canonical file not found: " ++ "gone.exe") ∈
      (create_hardlink_structure [("c.exe", [1, 2])]
        [("a.exe", "gone.exe"), ("b.exe", "c.exe")] (fun _ => false)).warnings ∧
    "a.exe" ∉ (create_hardlink_structure [("c.exe", [1, 2])]
        [("a.exe", "gone.exe"), ("b.exe", "c.exe")]
        (fun _ => false)).outFiles.map Prod.fst ∧
    (∀ fn' c' b, (fn', c') ∈
        ([("a.exe", "gone.exe"), ("b.exe", "c.exe")] : List (String × String)) →
      storeLookup [("c.exe", [1, 2])] c' = some b →
      (fn', b) ∈ (create_hardlink_structure [("c.exe", [1, 2])]
        [("a.exe", "gone.exe"), ("b.exe", "c.exe")] (fun _ => false)).outFiles)) :=
  ⟨⟨by decide, by decide, by decide⟩,
   claim_C7 [("c.exe", [1, 2])] [("a.exe", "gone.exe"), ("b.exe", "c.exe")]
     (fun _ => false) "a.exe" "gone.exe" (by decide) (by decide) (by decide)⟩

/-- Claim C8 (confirmed): for a manifest entry whose canonical file exists
in the store, the destination always ends up with the canonical bytes, no
matter which hard links fail; the materialized files are identical for
every pattern of link failures (so a failure never aborts the run); and
when the canonical copy was materialized by an earlier entry and the link
for this entry fails, the fallback is logged as a warning naming the
destination. -/
theorem claim_C8 (store : List (String × Bytes)) (manifest : List (String × String))
    (lf lf2 : String → Bool) (fn c : String) (b : Bytes)
    (hmem : (fn, c) ∈ manifest) (hl : storeLookup store c = some b) :
    (fn, b) ∈ (create_hardlink_structure store manifest lf).outFiles ∧
    (create_hardlink_structure store manifest lf).outFiles =
      (create_hardlink_structure store manifest lf2).outFiles ∧
    (∀ pre post, sortManifest manifest = pre ++ (fn, c) :: post →
      c ∈ pre.map Prod.snd → lf fn = true →
      ("Warning: Hard link failed, using copy instead: " ++ fn) ∈
        (create_hardlink_structure store manifest lf).warnings) := by
  have hperm : (sortManifest manifest).Perm manifest := List.perm_insertionSort _ _
  refine ⟨hardlinkLoop_mem_out _ _ _ [] fn c b (hperm.mem_iff.mpr hmem) hl,
          hardlinkLoop_out_indep store lf lf2 _ [], ?_⟩
  intro pre post hsplit hc hfail
  have := hardlinkLoop_warn_link store lf pre post [] fn c b hl (Or.inr hc) hfail
  rw [create_hardlink_structure, hsplit]
  exact this

/-- Witness for C8: the second name of a duplicate pair with a failing
link still gets the canonical bytes, and the fallback warning is logged. -/
theorem claim_C8_witness :
    (("b.exe", "a.exe") ∈
      ([("a.exe", "a.exe"), ("b.exe", "a.exe")] : List (String × String)) ∧
    storeLookup [("a.exe", [5])] "a.exe" = some [5]) ∧
    (("b.exe", [5]) ∈ (create_hardlink_structure [("a.exe", [5])]
        [("a.exe", "a.exe"), ("b.exe", "a.exe")] (fun n => n == "b.exe")).outFiles ∧
    (create_hardlink_structure [("a.exe", [5])]
        [("a.exe", "a.exe"), ("b.exe", "a.exe")] (fun n => n == "b.exe")).outFiles =
      (create_hardlink_structure [("a.exe", [5])]
        [("a.exe", "a.exe"), ("b.exe", "a.exe")] (fun _ => false)).outFiles ∧
    (∀ pre post,
      sortManifest [("a.exe", "a.exe"), ("b.exe", "a.exe")] =
        pre ++ ("b.exe", "a.exe") :: post →
      "a.exe" ∈ pre.map Prod.snd → (fun n => n == "b.exe") "b.exe" = true →
      ("Warning: Hard link failed, using copy instead: " ++ "b.exe") ∈
        (create_hardlink_structure [("a.exe", [5])]
          [("a.exe", "a.exe"), ("b.exe", "a.exe")]
          (fun n => n == "b.exe")).warnings)) :=
  ⟨⟨by decide, by decide⟩,
   claim_C8 [("a.exe", [5])] [("a.exe", "a.exe"), ("b.exe", "a.exe")]
     (fun n => n == "b.exe") (fun _ => false) "b.exe" "a.exe" [5]
     (by decide) (by decide)⟩
